import Mathlib

/-!
Verification development for the sparkflow extraction / snapshot-reconciliation
engine.  The Python sources are embedded shallowly:

* a pandas `DataFrame` is a `Table`: an ordered list of column names together
  with rows, each row being a list of cells aligned with the columns;
* a cell is `Option Val` where `none` models a pandas null (`pd.NA`/`NaN`) and
  `Val` covers the scalar values that occur (strings and minute-truncated
  timestamps, the latter as naturals);
* `pd.Timestamp.now().floor("min")` is passed in as an explicit `currTime`
  parameter, since the claims are relative to the run time;
* fallible I/O (FTP listings and retrievals) is modelled by oracles of type
  `Except Unit _`, `Except.error` standing for a raised exception.
-/

inductive Val where
  | str (s : String)
  | time (t : Nat)
deriving DecidableEq, Repr

abbrev Cell := Option Val

abbrev Row := List Cell

structure Table where
  cols : List String
  rows : List Row
deriving DecidableEq, Repr

/-- Column access `df[c]` for one row: the value at the first column named `c`,
`none` when the column is absent (or the row is too short). -/
def getCell : List String → Row → String → Cell
  | [], _, _ => none
  | _ :: _, [], _ => none
  | c :: cs, v :: vs, d => if c = d then v else getCell cs vs d

/-- Overwrite the value at the first column named `d` (used by column
assignment when the column already exists). -/
def setCellRow : List String → Row → String → Cell → Row
  | _, [], _, _ => []
  | [], r, _, _ => r
  | c :: cs, v :: vs, d, w => if c = d then w :: vs else v :: setCellRow cs vs d w

/-- Column assignment `df[c] = f(row)`: overwrite the column if present,
otherwise append it on the right (pandas column-assignment semantics). -/
def Table.setColWith (t : Table) (c : String) (f : Row → Cell) : Table :=
  if t.cols.contains c then
    Table.mk t.cols (t.rows.map (fun r => setCellRow t.cols r c (f r)))
  else
    Table.mk (t.cols ++ [c]) (t.rows.map (fun r => r ++ [f r]))

/-- Broadcast column assignment `df[c] = v`. -/
def Table.setColConst (t : Table) (c : String) (v : Cell) : Table :=
  t.setColWith c (fun _ => v)

/-- The loop `for col in all_columns: if col not in df.columns: df[col] = pd.NA`.
The Python iterates over a set; the set's iteration order is not observable in
the merge result, so the model fixes the order of the other table's columns. -/
def Table.addMissingCols (t : Table) (cs : List String) : Table :=
  cs.foldl (fun acc c =>
    if acc.cols.contains c then acc
    else Table.mk (acc.cols ++ [c]) (acc.rows.map (fun r => r ++ [none]))) t

/-- The reserved placeholder `'___NULL___'` used by `merge_with_current_data`;
it is an ordinary string value. -/
def placeholder : Val := Val.str "___NULL___"

/-- One cell of `df.fillna(placeholder)`. -/
def fillCell (c : Cell) : Cell := some (c.getD placeholder)

/-- `df.fillna(placeholder)`. -/
def Table.fillna (t : Table) : Table :=
  Table.mk t.cols (t.rows.map (List.map fillCell))

/-- One cell of `df.replace(placeholder, pd.NA)`. -/
def normCell (c : Cell) : Cell := if c = some placeholder then none else c

/-- `df.replace(placeholder, pd.NA)`. -/
def Table.replaceSentinel (t : Table) : Table :=
  Table.mk t.cols (t.rows.map (List.map normCell))

/-- Suffixing of overlapping non-key column names done by `DataFrame.merge`. -/
def suffixIfNotKey (keys : List String) (suf : String) (c : String) : String :=
  if keys.contains c then c else c ++ suf

/-- The tuple of join-key values of one row. -/
def joinKeyOf (keys cols : List String) (r : Row) : List Cell :=
  keys.map (getCell cols r)

/-- The non-key columns contributed by the right frame of the join. -/
def rightNonkeys (keys : List String) (rt : Table) : List String :=
  rt.cols.filter (fun c => !(keys.contains c))

/-- The right-frame rows whose join key matches that of the left row `l`. -/
def matchesOf (keys : List String) (lt rt : Table) (l : Row) : List Row :=
  rt.rows.filter (fun r => decide (joinKeyOf keys rt.cols r = joinKeyOf keys lt.cols l))

/-- A joined row for a matching pair: left columns, right non-key columns,
indicator `'both'`. -/
def pairRowOf (keys : List String) (lt rt : Table) (l r : Row) : Row :=
  lt.cols.map (getCell lt.cols l) ++ (rightNonkeys keys rt).map (getCell rt.cols r)
    ++ [some (Val.str "both")]

/-- A joined row for an unmatched left row: right non-key columns are null. -/
def leftOnlyRowOf (keys : List String) (lt rt : Table) (l : Row) : Row :=
  lt.cols.map (getCell lt.cols l) ++ (rightNonkeys keys rt).map (fun _ => (none : Cell))
    ++ [some (Val.str "left_only")]

/-- A joined row for an unmatched right row: key columns are taken from the
right frame, remaining left columns are null. -/
def rightOnlyRowOf (keys : List String) (lt rt : Table) (r : Row) : Row :=
  lt.cols.map (fun c => if keys.contains c then getCell rt.cols r c else none)
    ++ (rightNonkeys keys rt).map (getCell rt.cols r) ++ [some (Val.str "right_only")]

/-- `new_df.merge(curr_df, on=match_columns, how='outer', indicator=True)` for
two frames that share their column set (as is the case after the
missing-column fill): key columns keep their names, all other columns appear
suffixed `_x` (left) and `_y` (right), the indicator column `_merge` holds
`'left_only'`, `'both'` or `'right_only'`; matching pairs produce one row per
pair, unmatched left/right rows are null-extended on the other side. -/
def outerMerge (keys : List String) (lt rt : Table) : Table :=
  Table.mk
    (lt.cols.map (suffixIfNotKey keys "_x")
      ++ (rightNonkeys keys rt).map (fun c => c ++ "_y") ++ ["_merge"])
    ((lt.rows.flatMap (fun l =>
        if (matchesOf keys lt rt l).isEmpty then [leftOnlyRowOf keys lt rt l]
        else (matchesOf keys lt rt l).map (pairRowOf keys lt rt l)))
      ++ (rt.rows.filter (fun r =>
            lt.rows.all (fun l =>
              !(decide (joinKeyOf keys lt.cols l = joinKeyOf keys rt.cols r))))).map
          (rightOnlyRowOf keys lt rt))

/-- The value assigned into the fresh `first_seen_at` column of the merged
frame by the three masked `.loc` assignments. -/
def fsaAssign (currTime : Nat) (cols : List String) (r : Row) : Cell :=
  if getCell cols r "_merge" = some (Val.str "left_only") then some (Val.time currTime)
  else if getCell cols r "_merge" = some (Val.str "both") then getCell cols r "first_seen_at_y"
  else if getCell cols r "_merge" = some (Val.str "right_only") then
    getCell cols r "first_seen_at_y"
  else none

/-- The value assigned into the fresh `last_seen_at` column of the merged
frame by the three masked `.loc` assignments. -/
def lsaAssign (currTime : Nat) (cols : List String) (r : Row) : Cell :=
  if getCell cols r "_merge" = some (Val.str "left_only") then some (Val.time currTime)
  else if getCell cols r "_merge" = some (Val.str "both") then some (Val.time currTime)
  else if getCell cols r "_merge" = some (Val.str "right_only") then
    getCell cols r "last_seen_at_y"
  else none

/-- The masked `.loc` assignments populating `first_seen_at`/`last_seen_at`
of the merged frame from the `_merge` indicator and the `_y` timestamp
columns. -/
def tsAssign (currTime : Nat) (t : Table) : Table :=
  (t.setColWith "first_seen_at" (fsaAssign currTime t.cols)).setColWith
    "last_seen_at" (lsaAssign currTime t.cols)

/-- One row of `df.drop(columns=...)` / column filtering. -/
def filterColsRow (p : String → Bool) : List String → Row → Row
  | [], _ => []
  | _ :: _, [] => []
  | c :: cs, v :: vs => if p c then v :: filterColsRow p cs vs else filterColsRow p cs vs

/-- Keep exactly the columns satisfying `p` (models `df.drop(columns=l)` with
`p c = !(c ∈ l)`). -/
def Table.keepCols (t : Table) (p : String → Bool) : Table :=
  Table.mk (t.cols.filter p) (t.rows.map (filterColsRow p t.cols))

/-- Python `str.endswith(suffix)`. -/
def endsIn (suf : List Char) (s : String) : Bool :=
  suf.reverse.isPrefixOf s.data.reverse

/-- The five join-bookkeeping columns dropped by name. -/
def mergeArtifactCols : List String :=
  ["first_seen_at_x", "first_seen_at_y", "last_seen_at_x", "last_seen_at_y", "_merge"]

/-- The two statements `new_df['first_seen_at'] = curr_time` and
`new_df['last_seen_at'] = curr_time`. -/
def stampNow (currTime : Nat) (df : Table) : Table :=
  (df.setColConst "first_seen_at" (some (Val.time currTime))).setColConst
    "last_seen_at" (some (Val.time currTime))

/-- The main branch of `merge_with_current_data` (both inputs nonempty), one
helper application per Python statement: capture `match_columns`, stamp the
snapshot, union the column sets null-filling the missing side, replace nulls
by the placeholder, outer-join with indicator, assign the timestamps by
partition, drop the five bookkeeping columns, drop every remaining column
ending in `_x`/`_y`, and turn the placeholder back into null. -/
def mergeMainBranch (currTime : Nat) (newDf curr : Table) : Table :=
  Table.replaceSentinel
    (Table.keepCols
      (Table.keepCols
        (tsAssign currTime
          (outerMerge newDf.cols
            (Table.fillna ((stampNow currTime newDf).addMissingCols curr.cols))
            (Table.fillna (curr.addMissingCols (stampNow currTime newDf).cols))))
        (fun c => !(mergeArtifactCols.contains c)))
      (fun c => !(endsIn ['_', 'x'] c || endsIn ['_', 'y'] c)))

/-- Shallow embedding of `merge_with_current_data(new_df, curr_df)` from
`src/pipelines/flows/extract_functions.py` (the copy in
`src/pipelines/flows/tlo_scraper/extract_functions.py` is logically
identical).  `currTime` stands for `pd.Timestamp.now().floor('min')`;
`currDf = none` models `curr_df is None`. -/
def merge_with_current_data (currTime : Nat) (newDf : Table) (currDf : Option Table) :
    Option Table :=
  if newDf.rows.length = 0 then currDf
  else
    match currDf with
    | none => some (stampNow currTime newDf)
    | some curr =>
      if curr.rows.length = 0 then some (stampNow currTime newDf)
      else some (mergeMainBranch currTime newDf curr)

/-!
Bill-identifier normalization (`clean_bill_id` in
`src/pipelines/flows/extract_functions.py`) and the spacing normalization of
`HouseCalendarParser._extract_bill_ids_from_text`
(`src/parsers/calendars/house_calendar_parser.py`).  Python string scanning is
modelled on `List Char`; `str.replace(old, '')` for a one-character `old` is
removal of all its occurrences, i.e. a filter.
-/

/-- Remainder of `hay` after the first occurrence of `needle`, if any:
the backbone of matching an anchored `.*needle.*` regex component, and of
Python's `str.split` at its leftmost separator occurrence. -/
def afterSub (needle : List Char) : List Char → Option (List Char)
  | [] => if needle.isEmpty then some [] else none
  | c :: rest =>
    if needle.isPrefixOf (c :: rest) then some ((c :: rest).drop needle.length)
    else afterSub needle rest

/-- The prefix of `hay` before the first occurrence of `needle`, if any. -/
def beforeSub (needle : List Char) : List Char → Option (List Char)
  | [] => if needle.isEmpty then some [] else none
  | c :: rest =>
    if needle.isPrefixOf (c :: rest) then some []
    else (beforeSub needle rest).map (fun l => c :: l)

/-- Does `needle` occur as a contiguous sublist of `hay`? -/
def containsSub (needle hay : List Char) : Bool := (afterSub needle hay).isSome

/-- `clean_bill_id(bill_id)`: split on `') '`, strip `'('` from the session
part and `' '` from the bill part.  Python unpacks the split into exactly two
names — the separator must occur exactly once: the part before it and the
part after it, the latter holding no further occurrence — and raises
`ValueError` otherwise; that failure is `none`. -/
def clean_bill_id (billId : String) : Option (String × String) :=
  match beforeSub [')', ' '] billId.data, afterSub [')', ' '] billId.data with
  | some sessionPart, some billPart =>
    if containsSub [')', ' '] billPart then none
    else some (String.mk (billPart.filter (fun c => !(c == ' '))),
               String.mk (sessionPart.filter (fun c => !(c == '('))))
  | _, _ => none

/-- Python's `\s` character class (`[ \t\n\r\f\v]` over ASCII input). -/
def isPyWs (c : Char) : Bool :=
  c == ' ' || c == '\t' || c == '\n' || c == '\r' || c == '\x0b' || c == '\x0c'

/-- Python's `\w` character class over ASCII input (`[A-Za-z0-9_]`). -/
def isWordChar (c : Char) : Bool := c.isAlphanum || c == '_'

/-- Global substitution `re.sub(r"([A-Z]+)(\d+)", r"\1 \2", _)`: each maximal
uppercase run immediately followed by a digit run gets a single space inserted
between the two runs; scanning resumes after the digits. -/
def billSubChars (cs : List Char) : List Char :=
  match cs with
  | [] => []
  | c :: rest =>
    if c.isUpper then
      let letters := rest.takeWhile Char.isUpper
      let afterL := rest.dropWhile Char.isUpper
      let digits := afterL.takeWhile Char.isDigit
      let afterD := afterL.dropWhile Char.isDigit
      if digits.isEmpty then c :: billSubChars rest
      else (c :: letters) ++ ' ' :: digits ++ billSubChars afterD
    else c :: billSubChars rest
termination_by cs.length
decreasing_by
  all_goals simp only [List.length_cons]
  all_goals try omega
  have h1 : (List.dropWhile Char.isDigit (List.dropWhile Char.isUpper rest)).length ≤
      (List.dropWhile Char.isUpper rest).length :=
    (List.dropWhile_sublist _).length_le
  have h2 : (List.dropWhile Char.isUpper rest).length ≤ rest.length :=
    (List.dropWhile_sublist _).length_le
  omega

/-- The literal `'Bill='` prefix of the extraction regex. -/
def billMarker : List Char := ['B', 'i', 'l', 'l', '=']

/-- `re.findall(r"Bill=([A-Z]+\s*\d+)", text)`: scan left to right; at each
occurrence of `Bill=` capture a nonempty uppercase run, optional whitespace,
and a nonempty digit run, then resume after the match; otherwise advance one
character. -/
def extractBillMatches (cs : List Char) : List (List Char) :=
  match cs with
  | [] => []
  | _ :: rest =>
    if billMarker.isPrefixOf cs then
      let after := rest.drop 4
      let letters := after.takeWhile Char.isUpper
      let afterL := after.dropWhile Char.isUpper
      let sp := afterL.takeWhile isPyWs
      let afterSp := afterL.dropWhile isPyWs
      let digits := afterSp.takeWhile Char.isDigit
      let afterD := afterSp.dropWhile Char.isDigit
      if letters.isEmpty || digits.isEmpty then extractBillMatches rest
      else (letters ++ sp ++ digits) :: extractBillMatches afterD
    else extractBillMatches rest
termination_by cs.length
decreasing_by
  all_goals simp only [List.length_cons]
  all_goals try omega
  have h1 : (List.dropWhile Char.isDigit
      (List.dropWhile isPyWs (List.dropWhile Char.isUpper (List.drop 4 rest)))).length ≤
      (List.dropWhile isPyWs (List.dropWhile Char.isUpper (List.drop 4 rest))).length :=
    (List.dropWhile_sublist _).length_le
  have h2 : (List.dropWhile isPyWs (List.dropWhile Char.isUpper (List.drop 4 rest))).length ≤
      (List.dropWhile Char.isUpper (List.drop 4 rest)).length :=
    (List.dropWhile_sublist _).length_le
  have h3 : (List.dropWhile Char.isUpper (List.drop 4 rest)).length ≤ (List.drop 4 rest).length :=
    (List.dropWhile_sublist _).length_le
  have h4 : (List.drop 4 rest).length ≤ rest.length := by
    simp only [List.length_drop]
    omega
  omega

/-- `HouseCalendarParser._extract_bill_ids_from_text`: find the regex matches,
then for each match remove spaces and re-insert a single space between prefix
and number. -/
def extract_bill_ids_from_text (text : String) : List String :=
  (extractBillMatches text.data).map
    (fun m => String.mk (billSubChars (m.filter (fun c => !(c == ' ')))))

/-!
Calendar-type normalization
(`HouseCalendarParser._normalize_calendar_type`).  The preprocessing regexes
`&\w+;` → space and `\s+` → single space are modelled as character scanners;
the ordered pattern table is modelled by matchers equivalent to the anchored
`.*A.*B.*` regexes: such a pattern matches iff its literal components occur in
order, which is checked by chasing first occurrences.
-/

/-- `re.sub(r"&\w+;", " ", _)`: every `&`, followed by a nonempty word-char
run and `;`, becomes one space; otherwise characters are copied. -/
def stripEntitiesFuel : Nat → List Char → List Char
  | 0, cs => cs
  | _ + 1, [] => []
  | fuel + 1, c :: rest =>
    if c == '&' then
      let w := rest.takeWhile isWordChar
      let r2 := rest.dropWhile isWordChar
      if !w.isEmpty && r2.headD ' ' == ';' then ' ' :: stripEntitiesFuel fuel r2.tail
      else c :: stripEntitiesFuel fuel rest
    else c :: stripEntitiesFuel fuel rest

def stripEntitiesChars (cs : List Char) : List Char := stripEntitiesFuel cs.length cs

/-- `re.sub(r"\s+", " ", _)`: each maximal whitespace run becomes one space. -/
def collapseWsFuel : Nat → List Char → List Char
  | 0, cs => cs
  | _ + 1, [] => []
  | fuel + 1, c :: rest =>
    if isPyWs c then ' ' :: collapseWsFuel fuel (rest.dropWhile isPyWs)
    else c :: collapseWsFuel fuel rest

def collapseWsChars (cs : List Char) : List Char := collapseWsFuel cs.length cs

/-- Python `str.strip()` (on input whose whitespace is ASCII). -/
def trimWsChars (cs : List Char) : List Char :=
  ((cs.dropWhile isPyWs).reverse.dropWhile isPyWs).reverse

/-- The cleanup prefix of `_normalize_calendar_type`: entity removal,
whitespace collapse, strip, uppercase. -/
def normTypeText (text : String) : String :=
  String.mk ((trimWsChars (collapseWsChars (stripEntitiesChars text.data))).map Char.toUpper)

/-- A regex of shape `.*n₁.*n₂.* ... .*nₖ.*` (with `re.match`) accepts
exactly the texts whose components occur left to right in order. -/
def containsInOrder : List (List Char) → List Char → Bool
  | [], _ => true
  | n :: ns, hay =>
    match afterSub n hay with
    | some rest => containsInOrder ns rest
    | none => false

/-- The ordered `calendar_patterns` table of `_normalize_calendar_type`;
each Python regex is translated to its in-order-components matcher
(`(?:PRE-FILED|PREFILED)` becomes a disjunction of the two orders). -/
def calendar_patterns : List ((List Char → Bool) × String) :=
  [(fun l => containsInOrder ["PRE-FILED".data, "AMENDMENT".data] l
      || containsInOrder ["PREFILED".data, "AMENDMENT".data] l,
    "LIST OF PRE-FILED AMENDMENTS"),
   (fun l => containsInOrder ["CONGRATULATORY".data, "MEMORIAL".data, "CALENDAR".data] l,
    "CONGRATULATORY AND MEMORIAL CALENDAR"),
   (fun l => containsInOrder ["SUPPLEMENTAL".data, "HOUSE".data, "CALENDAR".data] l,
    "SUPPLEMENTAL HOUSE CALENDAR"),
   (fun l => containsInOrder ["DAILY".data, "HOUSE".data, "CALENDAR".data] l,
    "DAILY HOUSE CALENDAR"),
   (fun l => containsInOrder ["HOUSE".data, "CALENDAR".data] l,
    "DAILY HOUSE CALENDAR"),
   (fun l => containsInOrder ["AMENDMENT".data] l,
    "LIST OF PRE-FILED AMENDMENTS")]

/-- `HouseCalendarParser._normalize_calendar_type`: clean the text, then the
first matching pattern rule wins; if none matches, return the cleaned text. -/
def normalize_calendar_type (text : String) : String :=
  let cleaned := normTypeText text
  match calendar_patterns.find? (fun pr => pr.1 cleaned.data) with
  | some pr => pr.2
  | none => cleaned

/-- The `Subcalendar` dataclass of `src/models/subcalendar.py`. -/
structure Subcalendar where
  reading_count : Nat
  subcalendar_type : String
  bill_ids : List String
deriving DecidableEq, Repr

/-- `HouseCalendarParser._extract_prefiled_amendments_subcalendars`: all bill
identifiers in the document form one ungrouped reading-count-1 subcalendar;
no identifiers, no subcalendar. -/
def extract_prefiled_amendments_subcalendars (data : String) : List Subcalendar :=
  let bill_ids := extract_bill_ids_from_text data
  if !bill_ids.isEmpty then [Subcalendar.mk 1 "" bill_ids] else []

/-- The substring test `"PRE-FILED AMENDMENTS" in calendar_type` with which
`_extract_subcalendars` dispatches to the prefiled-amendments extractor. -/
def dispatchesToPrefiled (calendarType : String) : Bool :=
  containsSub "PRE-FILED AMENDMENTS".data calendarType.data

/-!
Transport layer (`FtpConnection` in `src/pipelines/flows/utils.py`).  An FTP
operation is an oracle `Nat → Except Unit α` giving the outcome of its n-th
attempt (`Except.error` = the attempt raises); re-establishing the session is
an oracle `Except Unit Unit`.  A parsed URL keeps only the components the code
reads (`urlparse(url).netloc` and `.path`).
-/

structure FtpUrl where
  netloc : String
  path : String
deriving DecidableEq, Repr

/-- `FtpConnection._retry_on_disconnect(operation)`: run the operation; on any
exception reconnect and run it exactly once more; if the reconnect or the
second run raises, return `None` instead of propagating. -/
def retry_on_disconnect (connectAttempt : Except Unit Unit)
    (operation : Nat → Except Unit α) : Option α :=
  match operation 0 with
  | Except.ok a => some a
  | Except.error _ =>
    match connectAttempt with
    | Except.error _ => none
    | Except.ok _ =>
      match operation 1 with
      | Except.ok a => some a
      | Except.error _ => none

/-- `FtpConnection.get_data(url)`: cross-host URLs short-circuit to `None`;
otherwise the retrieval runs under the retry-once-after-reconnect policy. -/
def ftp_get_data (host : String) (url : FtpUrl) (connectAttempt : Except Unit Unit)
    (operation : Nat → Except Unit String) : Option String :=
  if url.netloc ≠ host then none
  else retry_on_disconnect connectAttempt operation

/-- `FtpConnection.ls(url)`: cross-host URLs short-circuit to `[]`; a `None`
from the retry wrapper is converted to `[]`. -/
def ftp_ls (host : String) (url : FtpUrl) (connectAttempt : Except Unit Unit)
    (operation : Nat → Except Unit (List String)) : List String :=
  if url.netloc ≠ host then []
  else
    match retry_on_disconnect connectAttempt operation with
    | some result => result
    | none => []

/-- `FtpConnection.get_pdf_text(pdf_url)`: no host check, retrieval under the
retry policy, `None` on double failure. -/
def ftp_get_pdf_text (connectAttempt : Except Unit Unit)
    (operation : Nat → Except Unit String) : Option String :=
  retry_on_disconnect connectAttempt operation

/-!
Enumeration / traversal (`get_bill_urls` in
`src/pipelines/flows/extract_functions.py`).  Directory listing is an oracle
`ls : String → Except Unit (List String)` (`Except.error` = the `ls` call
raises); a raised traversal abort is the `Except.error` of the result.
-/

/-- The eight fixed bill categories traversed by `get_bill_urls`. -/
def billChambers : List String :=
  ["house_bills", "senate_bills",
   "house_joint_resolutions", "senate_joint_resolutions",
   "house_concurrent_resolutions", "senate_concurrent_resolutions",
   "house_resolutions", "senate_resolutions"]

/-- One iteration of the chamber loop body before the budget check: list the
chamber directory (a failure skips the chamber without touching the error
count), then list every range folder, appending successful listings to the
URL accumulator and counting each folder-listing failure. -/
def chamberStep (ls : String → Except Unit (List String)) (baseUrl : String)
    (acc : List String × Nat) (chamber : String) : List String × Nat :=
  match ls (baseUrl ++ "/billhistory/" ++ chamber) with
  | Except.error _ => acc
  | Except.ok rangeFolders =>
    rangeFolders.foldl (fun st folderUrl =>
      match ls folderUrl with
      | Except.ok billXmls => (st.1 ++ billXmls, st.2)
      | Except.error _ => (st.1, st.2 + 1)) acc

/-- `get_bill_urls(base_path, leg_session, ftp_connection, max_errors)`:
traverse the chambers, and after each chamber raise
(`Except.error`) as soon as the shared folder-failure count exceeds
`max_errors`; otherwise return the accumulated bill URLs.  `baseUrl` stands
for the already-formatted `base_path.format(LegSess=leg_session)`. -/
def get_bill_urls (baseUrl : String) (ls : String → Except Unit (List String))
    (maxErrors : Nat) : Except Unit (List String) :=
  match billChambers.foldl (fun st chamber =>
    match st with
    | Except.error e => Except.error e
    | Except.ok acc =>
      let acc2 := chamberStep ls baseUrl acc chamber
      if acc2.2 > maxErrors then Except.error () else Except.ok acc2)
    (Except.ok ([], 0)) with
  | Except.error e => Except.error e
  | Except.ok acc => Except.ok acc.1

/-!
Generic lemmas about the table primitives, used to characterize the main
branch of `merge_with_current_data`.
-/

theorem getCell_not_mem {cols : List String} {r : Row} {c : String} (h : c ∉ cols) :
    getCell cols r c = none := by
  induction cols generalizing r with
  | nil => cases r <;> rfl
  | cons c0 cs ih =>
    cases r with
    | nil => rfl
    | cons v vs =>
      have hne : c0 ≠ c := fun he => h (he ▸ List.mem_cons_self c0 cs)
      simp only [getCell, if_neg hne]
      exact ih (fun hc => h (List.mem_cons_of_mem _ hc))

theorem getCell_append {cols cols2 : List String} {r r2 : Row} {c : String}
    (h : r.length = cols.length) :
    getCell (cols ++ cols2) (r ++ r2) c =
      if c ∈ cols then getCell cols r c else getCell cols2 r2 c := by
  induction cols generalizing r with
  | nil =>
    cases r with
    | nil => simp
    | cons v vs => simp at h
  | cons c0 cs ih =>
    cases r with
    | nil => simp at h
    | cons v vs =>
      simp only [List.length_cons, Nat.succ.injEq] at h
      by_cases hc : c0 = c
      · subst hc
        simp [getCell]
      · simp only [List.cons_append, getCell, if_neg hc, List.mem_cons]
        have hne : ¬(c = c0) := fun he => hc he.symm
        simp only [hne, false_or]
        exact ih h

theorem getCell_map_val {cols : List String} {r : Row} {c : String} (f : Cell → Cell)
    (hlen : r.length = cols.length) :
    getCell cols (r.map f) c = if c ∈ cols then f (getCell cols r c) else none := by
  induction cols generalizing r with
  | nil =>
    cases r with
    | nil => simp [getCell]
    | cons v vs => simp at hlen
  | cons c0 cs ih =>
    cases r with
    | nil => simp at hlen
    | cons v vs =>
      simp only [List.length_cons, Nat.succ.injEq] at hlen
      by_cases hc : c0 = c
      · subst hc
        simp [getCell]
      · simp only [List.map_cons, getCell, if_neg hc, ih hlen, List.mem_cons]
        have hne : ¬(c = c0) := fun he => hc he.symm
        simp [hne]

theorem getCell_replicate {cols : List String} {n : Nat} {c : String} :
    getCell cols (List.replicate n (none : Cell)) c = none := by
  induction cols generalizing n with
  | nil => cases n <;> rfl
  | cons c0 cs ih =>
    cases n with
    | zero => rfl
    | succ m =>
      simp only [List.replicate, getCell]
      by_cases hc : c0 = c
      · simp [hc]
      · simp [hc, ih]

theorem getCell_map_map {cs : List String} (g : String → String) (f : String → Cell)
    {c : String} :
    getCell (cs.map g) (cs.map f) c =
      (match cs.find? (fun d => g d == c) with
       | some d => f d
       | none => none) := by
  induction cs with
  | nil => rfl
  | cons d ds ih =>
    simp only [List.map_cons, getCell, List.find?]
    by_cases hd : g d = c
    · simp [hd]
    · have hb : (g d == c) = false := by
        simp [hd]
      simp [hd, hb, ih]

theorem getCell_map_image_not_mem {cs : List String} {g : String → String} {f : String → Cell}
    {c : String} (h : ∀ d ∈ cs, g d ≠ c) :
    getCell (cs.map g) (cs.map f) c = none := by
  rw [getCell_map_map]
  have hfind : cs.find? (fun d => g d == c) = none := by
    rw [List.find?_eq_none]
    intro d hd
    simp [h d hd]
  rw [hfind]

theorem getCell_map_self {cs : List String} {f : String → Cell} {c : String} (h : c ∈ cs) :
    getCell cs (cs.map f) c = f c := by
  induction cs with
  | nil => simp at h
  | cons d ds ih =>
    simp only [List.map_cons, getCell]
    by_cases hd : d = c
    · subst hd
      simp
    · have h1 : c ∈ ds := by
        rcases List.mem_cons.mp h with h2 | h2
        · exact absurd h2.symm hd
        · exact h2
      simp [hd, ih h1]

theorem filterColsRow_nil_row {p : String → Bool} {cols : List String} :
    filterColsRow p cols [] = [] := by
  cases cols <;> rfl

theorem filterColsRow_append {p : String → Bool} {cols cols2 : List String} {r r2 : Row}
    (h : r.length = cols.length) :
    filterColsRow p (cols ++ cols2) (r ++ r2) =
      filterColsRow p cols r ++ filterColsRow p cols2 r2 := by
  induction cols generalizing r with
  | nil =>
    cases r with
    | nil => rfl
    | cons v vs => simp at h
  | cons c0 cs ih =>
    cases r with
    | nil => simp at h
    | cons v vs =>
      simp only [List.length_cons, Nat.succ.injEq] at h
      simp only [List.cons_append, filterColsRow]
      by_cases hp : p c0
      · simp [hp, ih h]
      · simp [hp, ih h]

theorem filterColsRow_map {p : String → Bool} {cs : List String} (g : String → String)
    (f : String → Cell) :
    filterColsRow p (cs.map g) (cs.map f) =
      ((cs.filter (fun d => p (g d))).map f) := by
  induction cs with
  | nil => rfl
  | cons d ds ih =>
    simp only [List.map_cons, filterColsRow, List.filter]
    by_cases hp : p (g d)
    · simp [hp, ih]
    · simp [hp, ih]

theorem filterColsRow_comp {p1 p2 : String → Bool} {cols : List String} {r : Row} :
    filterColsRow p2 (cols.filter p1) (filterColsRow p1 cols r) =
      filterColsRow (fun c => p1 c && p2 c) cols r := by
  induction cols generalizing r with
  | nil => rfl
  | cons c0 cs ih =>
    cases r with
    | nil =>
      rw [filterColsRow_nil_row, filterColsRow_nil_row, filterColsRow_nil_row]
    | cons v vs =>
      simp only [filterColsRow, List.filter]
      by_cases hp : p1 c0
      · by_cases hq : p2 c0 <;> simp [hp, hq, filterColsRow, ih]
      · simp [hp, filterColsRow, ih]

/-!
String-name lemmas: the suffixing scheme of the outer merge keeps the key
columns, the `_y` timestamp columns and the indicator column at distinct
names, which the following lemmas make available.
-/

theorem endsIn_append2 (a b : Char) (d : String) :
    endsIn [a, b] (d ++ String.mk [a, b]) = true := by
  simp only [endsIn, String.data_append]
  simp [List.reverse_append, List.isPrefixOf]

theorem ne_of_endsIn {suf : List Char} {s1 s2 : String}
    (h1 : endsIn suf s1 = true) (h2 : endsIn suf s2 = false) : s1 ≠ s2 := by
  intro he
  rw [he, h2] at h1
  exact Bool.false_ne_true h1

theorem append_x_ne {d e : String} (h : endsIn ['_', 'x'] e = false) : d ++ "_x" ≠ e := by
  have h1 : endsIn ['_', 'x'] (d ++ "_x") = true := endsIn_append2 '_' 'x' d
  exact ne_of_endsIn h1 h

theorem append_y_ne {d e : String} (h : endsIn ['_', 'y'] e = false) : d ++ "_y" ≠ e := by
  have h1 : endsIn ['_', 'y'] (d ++ "_y") = true := endsIn_append2 '_' 'y' d
  exact ne_of_endsIn h1 h

theorem append_suffix_cancel {d e : String} {suf : String} (h : d ++ suf = e ++ suf) :
    d = e := by
  apply String.ext
  have hdata : d.data ++ suf.data = e.data ++ suf.data := by
    have h1 := congrArg String.data h
    simpa [String.data_append] using h1
  exact List.append_cancel_right hdata

/-!
Algebra of the null sentinel: `fillCell` (null → placeholder) and `normCell`
(placeholder → null) interact as follows.
-/

theorem normCell_fillCell (c : Cell) : normCell (fillCell c) = normCell c := by
  cases c with
  | none => simp [fillCell, normCell]
  | some v =>
    by_cases hv : v = placeholder
    · simp [fillCell, normCell, hv]
    · simp [fillCell, normCell, hv, Option.getD]

theorem normCell_idem (c : Cell) : normCell (normCell c) = normCell c := by
  cases c with
  | none => rfl
  | some v =>
    by_cases hv : v = placeholder
    · simp [normCell, hv]
    · simp [normCell, hv]

theorem normCell_time (t : Nat) : normCell (some (Val.time t)) = some (Val.time t) := by
  simp [normCell, placeholder]

theorem fillCell_eq_iff {a b : Cell} : fillCell a = fillCell b ↔ normCell a = normCell b := by
  cases a with
  | none =>
    cases b with
    | none => simp
    | some w =>
      by_cases hw : w = placeholder
      · simp [fillCell, normCell, hw]
      · simp [fillCell, normCell, hw, Option.getD]
        exact fun he => hw he.symm
  | some v =>
    cases b with
    | none =>
      by_cases hv : v = placeholder
      · simp [fillCell, normCell, hv]
      · simp [fillCell, normCell, hv, Option.getD]
    | some w =>
      by_cases hv : v = placeholder
      · by_cases hw : w = placeholder
        · simp [fillCell, normCell, hv, hw]
        · simp [fillCell, normCell, hv, hw, Option.getD]
          exact fun he => hw he.symm
      · by_cases hw : w = placeholder
        · simp [fillCell, normCell, hv, hw, Option.getD]
        · simp [fillCell, normCell, hv, hw, Option.getD]

theorem fillCell_normCell (c : Cell) : fillCell (normCell c) = fillCell c := by
  rw [fillCell_eq_iff]
  exact normCell_idem c

/-!
Helpers for locating a column among suffixed names.
-/

theorem find?_cong {p q : α → Bool} {l : List α} (h : ∀ x ∈ l, p x = q x) :
    l.find? p = l.find? q := by
  induction l with
  | nil => rfl
  | cons x xs ih =>
    simp only [List.find?]
    rw [h x (List.mem_cons_self x xs)]
    by_cases hq : q x
    · simp [hq]
    · simp only [hq, cond_false]
      exact ih (fun y hy => h y (List.mem_cons_of_mem _ hy))

theorem find?_beq_self {l : List String} {a : String} (h : a ∈ l) :
    l.find? (fun x => x == a) = some a := by
  induction l with
  | nil => simp at h
  | cons x xs ih =>
    simp only [List.find?]
    by_cases hx : x = a
    · simp [hx]
    · have h1 : a ∈ xs := by
        rcases List.mem_cons.mp h with h2 | h2
        · exact absurd h2.symm hx
        · exact h2
      have hb : (x == a) = false := by
        simp [hx]
      rw [hb]
      exact ih h1

/-!
More lemmas for the merge characterization: reading past a row extension,
replicated values, and the shapes of the pipeline stages.
-/

theorem getCell_row_ext {cols : List String} {r ext : Row} {c : String}
    (h : cols.length ≤ r.length) :
    getCell cols (r ++ ext) c = getCell cols r c := by
  induction cols generalizing r with
  | nil => cases r <;> rfl
  | cons c0 cs ih =>
    cases r with
    | nil => simp at h
    | cons v vs =>
      simp only [List.length_cons] at h
      simp only [List.cons_append, getCell]
      by_cases hc : c0 = c
      · simp [hc]
      · simp only [if_neg hc]
        exact ih (Nat.le_of_succ_le_succ h)

theorem getCell_replicate_val {cols : List String} {n : Nat} {v : Cell} {c : String}
    (h : cols.length ≤ n) :
    getCell cols (List.replicate n v) c = if c ∈ cols then v else none := by
  induction cols generalizing n with
  | nil => cases n <;> simp [getCell]
  | cons c0 cs ih =>
    cases n with
    | zero => simp at h
    | succ m =>
      simp only [List.length_cons] at h
      simp only [List.replicate, getCell, List.mem_cons]
      by_cases hc : c0 = c
      · simp [hc]
      · have hne : ¬(c = c0) := fun he => hc he.symm
        simp [hc, hne, ih (Nat.le_of_succ_le_succ h)]

theorem contains_eq_false_of_not_mem {l : List String} {a : String} (h : a ∉ l) :
    l.contains a = false := by
  simp [List.contains, h]

theorem contains_eq_true_of_mem {l : List String} {a : String} (h : a ∈ l) :
    l.contains a = true := by
  simp [List.contains, h]

theorem stampNow_eq {t : Table} {currTime : Nat}
    (h1 : "first_seen_at" ∉ t.cols) (h2 : "last_seen_at" ∉ t.cols) :
    stampNow currTime t =
      Table.mk (t.cols ++ ["first_seen_at", "last_seen_at"])
        (t.rows.map (fun r => r ++ [some (Val.time currTime), some (Val.time currTime)])) := by
  unfold stampNow Table.setColConst Table.setColWith
  rw [contains_eq_false_of_not_mem h1]
  simp only [Bool.false_eq_true, if_false]
  have h2' : "last_seen_at" ∉ t.cols ++ ["first_seen_at"] := by
    intro hm
    rcases List.mem_append.mp hm with hm | hm
    · exact h2 hm
    · simp at hm
  rw [contains_eq_false_of_not_mem h2']
  simp only [Bool.false_eq_true, if_false, List.map_map, List.append_assoc]
  congr 1
  apply List.map_congr_left
  intro r _
  simp

theorem addMissingCols_eq {t : Table} {cs : List String} (hcs : cs.Nodup) :
    t.addMissingCols cs =
      Table.mk (t.cols ++ cs.filter (fun c => !(t.cols.contains c)))
        (t.rows.map (fun r =>
          r ++ List.replicate (cs.filter (fun c => !(t.cols.contains c))).length none)) := by
  induction cs generalizing t with
  | nil =>
    simp only [Table.addMissingCols, List.foldl_nil, List.filter_nil, List.append_nil,
      List.length_nil, List.replicate_zero]
    cases t with
    | mk cols rows =>
      simp [List.map_id']
  | cons c cs ih =>
    have hnd : cs.Nodup := hcs.of_cons
    have hcmem : c ∉ cs := (List.nodup_cons.mp hcs).1
    simp only [Table.addMissingCols, List.foldl_cons]
    by_cases hc : c ∈ t.cols
    · rw [contains_eq_true_of_mem hc]
      simp only [if_true]
      have h0 := ih (t := t) hnd
      simp only [Table.addMissingCols] at h0
      rw [h0]
      have hfilter : (c :: cs).filter (fun d => !(t.cols.contains d)) =
          cs.filter (fun d => !(t.cols.contains d)) := by
        rw [List.filter_cons]
        have hpc : (!(t.cols.contains c)) = false := by
          rw [contains_eq_true_of_mem hc]
          rfl
        rw [hpc]
        simp
      rw [hfilter]
    · rw [contains_eq_false_of_not_mem hc]
      simp only [Bool.false_eq_true, if_false]
      have h0 := ih (t := Table.mk (t.cols ++ [c]) (t.rows.map (fun r => r ++ [none]))) hnd
      simp only [Table.addMissingCols] at h0
      rw [h0]
      have hfilter : cs.filter (fun d => !((t.cols ++ [c]).contains d)) =
          cs.filter (fun d => !(t.cols.contains d)) := by
        apply List.filter_congr
        intro d hd
        have hdc : d ≠ c := fun he => hcmem (he ▸ hd)
        by_cases hdt : d ∈ t.cols
        · rw [contains_eq_true_of_mem hdt,
            contains_eq_true_of_mem (List.mem_append.mpr (Or.inl hdt))]
        · have hd2 : d ∉ t.cols ++ [c] := by
            intro hm
            rcases List.mem_append.mp hm with hm | hm
            · exact hdt hm
            · simp at hm
              exact hdc hm
          rw [contains_eq_false_of_not_mem hdt, contains_eq_false_of_not_mem hd2]
      have hfilter2 : (c :: cs).filter (fun d => !(t.cols.contains d)) =
          c :: cs.filter (fun d => !(t.cols.contains d)) := by
        rw [List.filter_cons]
        have hpc : (!(t.cols.contains c)) = true := by
          rw [contains_eq_false_of_not_mem hc]
          rfl
        rw [hpc]
        simp
      simp only [hfilter, hfilter2]
      congr 1
      · simp [List.append_assoc]
      · rw [List.map_map]
        apply List.map_congr_left
        intro r _
        simp only [Function.comp_apply, List.append_assoc, List.length_cons,
          List.replicate_succ, List.singleton_append]

theorem tsAssign_eq {t : Table} {currTime : Nat}
    (h1 : "first_seen_at" ∉ t.cols) (h2 : "last_seen_at" ∉ t.cols)
    (hlen : ∀ r ∈ t.rows, t.cols.length ≤ r.length) :
    tsAssign currTime t =
      Table.mk (t.cols ++ ["first_seen_at", "last_seen_at"])
        (t.rows.map (fun r =>
          r ++ [fsaAssign currTime t.cols r, lsaAssign currTime t.cols r])) := by
  unfold tsAssign Table.setColWith
  rw [contains_eq_false_of_not_mem h1]
  simp only [Bool.false_eq_true, if_false]
  have h2' : "last_seen_at" ∉ t.cols ++ ["first_seen_at"] := by
    intro hm
    rcases List.mem_append.mp hm with hm | hm
    · exact h2 hm
    · simp at hm
  rw [contains_eq_false_of_not_mem h2']
  simp only [Bool.false_eq_true, if_false, List.map_map, List.append_assoc]
  congr 1
  apply List.map_congr_left
  intro r hr
  simp only [Function.comp_apply, List.append_assoc, List.singleton_append]
  have hlsa : lsaAssign currTime t.cols (r ++ [fsaAssign currTime t.cols r]) =
      lsaAssign currTime t.cols r := by
    unfold lsaAssign
    rw [getCell_row_ext (hlen r hr), getCell_row_ext (hlen r hr)]
  rw [hlsa]

theorem keepCols_keepCols (t : Table) (p1 p2 : String → Bool) :
    (t.keepCols p1).keepCols p2 =
      Table.mk (t.cols.filter (fun c => p1 c && p2 c))
        (t.rows.map (filterColsRow (fun c => p1 c && p2 c) t.cols)) := by
  unfold Table.keepCols
  simp only [List.filter_filter, List.map_map]
  congr 1
  · apply List.filter_congr
    intro a _
    exact Bool.and_comm _ _
  · apply List.map_congr_left
    intro r _
    simp only [Function.comp_apply]
    exact filterColsRow_comp

/-!
Derived description of the main merge branch.  `mergeSpec` below is what the
pipeline is proven to compute: business columns of the snapshot plus the two
timestamp columns; snapshot rows joined against the sentinel-normalized
history key; unmatched history rows projected onto the snapshot columns.
-/

@[simp] theorem Table.cols_mk (cs : List String) (rs : List Row) :
    (Table.mk cs rs).cols = cs := rfl

@[simp] theorem Table.rows_mk (cs : List String) (rs : List Row) :
    (Table.mk cs rs).rows = rs := rfl

/-- The key on which two rows are compared by the join: the tuple of
`keyCols` values with nulls replaced by the sentinel. -/
def sentinelKey (keyCols cols : List String) (r : Row) : List Cell :=
  keyCols.map (fun c => fillCell (getCell cols r c))

/-- History rows matching a snapshot row on the sentinel-normalized key. -/
def histMatches (S H : Table) (s : Row) : List Row :=
  H.rows.filter (fun h =>
    decide (sentinelKey S.cols H.cols h = sentinelKey S.cols S.cols s))

/-- Output row for a snapshot row never seen before. -/
def specNewRow (t : Nat) (S : Table) (s : Row) : Row :=
  S.cols.map (fun c => normCell (getCell S.cols s c))
    ++ [some (Val.time t), some (Val.time t)]

/-- Output row for a snapshot row matching history row `h`. -/
def specMatchedRow (t : Nat) (S H : Table) (s h : Row) : Row :=
  S.cols.map (fun c => normCell (getCell S.cols s c))
    ++ [normCell (getCell H.cols h "first_seen_at"), some (Val.time t)]

/-- Output row for a history row not reproduced by this run. -/
def specOldRow (S H : Table) (h : Row) : Row :=
  S.cols.map (fun c => normCell (getCell H.cols h c))
    ++ [normCell (getCell H.cols h "first_seen_at"),
        normCell (getCell H.cols h "last_seen_at")]

/-- The result of the main merge branch, in closed form. -/
def mergeSpec (t : Nat) (S H : Table) : Table :=
  Table.mk (S.cols ++ ["first_seen_at", "last_seen_at"])
    ((S.rows.flatMap (fun s =>
        if (histMatches S H s).isEmpty then [specNewRow t S s]
        else (histMatches S H s).map (specMatchedRow t S H s)))
      ++ (H.rows.filter (fun h => S.rows.all (fun s =>
            !(decide (sentinelKey S.cols S.cols s = sentinelKey S.cols H.cols h))))).map
          (specOldRow S H))

/-- Wellformedness of a snapshot table, as produced by the normalizer: no
duplicate column names, no timestamp or join-bookkeeping column names, and
rows aligned with the columns. -/
def SnapshotWf (S : Table) : Prop :=
  S.cols.Nodup ∧ "first_seen_at" ∉ S.cols ∧ "last_seen_at" ∉ S.cols ∧ "_merge" ∉ S.cols ∧
  (∀ c ∈ S.cols, endsIn ['_', 'x'] c = false ∧ endsIn ['_', 'y'] c = false) ∧
  (∀ r ∈ S.rows, r.length = S.cols.length)

/-- Wellformedness of a stored history table: no duplicate column names and
rows aligned with the columns. -/
def HistoryWf (H : Table) : Prop :=
  H.cols.Nodup ∧ ∀ r ∈ H.rows, r.length = H.cols.length

/-- Column layout of the stamped snapshot frame. -/
def newColsOf (S : Table) : List String :=
  S.cols ++ ["first_seen_at", "last_seen_at"]

/-- History columns absent from the stamped snapshot frame (schema drift on
the history side). -/
def driftColsOf (S H : Table) : List String :=
  H.cols.filter (fun c => !((newColsOf S).contains c))

/-- Column layout of the null-filled snapshot frame. -/
def newAllColsOf (S H : Table) : List String :=
  newColsOf S ++ driftColsOf S H

/-- Stamped-snapshot columns absent from the history (schema drift on the
snapshot side, plus the timestamps on a first-format history). -/
def addedColsOf (S H : Table) : List String :=
  (newColsOf S).filter (fun c => !(H.cols.contains c))

/-- Column layout of the null-filled history frame. -/
def currAllColsOf (S H : Table) : List String :=
  H.cols ++ addedColsOf S H

/-- A snapshot row after stamping, null-filling and sentinel substitution. -/
def procS (t : Nat) (S H : Table) (s : Row) : Row :=
  List.map fillCell
    ((s ++ [some (Val.time t), some (Val.time t)])
      ++ List.replicate (driftColsOf S H).length none)

/-- A history row after null-filling and sentinel substitution. -/
def procH (S H : Table) (h : Row) : Row :=
  List.map fillCell (h ++ List.replicate (addedColsOf S H).length none)

theorem flatMap_map_list {l : List α} {f : α → β} {g : β → List γ} :
    (l.map f).flatMap g = l.flatMap (fun x => g (f x)) := by
  induction l with
  | nil => rfl
  | cons x xs ih => simp [List.flatMap_cons, ih]

theorem isEmpty_map_list {l : List α} {f : α → β} : (l.map f).isEmpty = l.isEmpty := by
  cases l <;> rfl

theorem all_congr_list {l : List α} {p q : α → Bool} (h : ∀ x ∈ l, p x = q x) :
    l.all p = l.all q := by
  induction l with
  | nil => rfl
  | cons x xs ih =>
    simp only [List.all_cons]
    rw [h x (List.mem_cons_self x xs), ih (fun y hy => h y (List.mem_cons_of_mem _ hy))]

theorem all_map_list {l : List α} {f : α → β} {p : β → Bool} :
    (l.map f).all p = l.all (fun x => p (f x)) := by
  induction l with
  | nil => rfl
  | cons x xs ih => simp [ih]

/-!
The two frames entering the join, in closed form.
-/

theorem newF_eq {S H : Table} {t : Nat}
    (h1 : "first_seen_at" ∉ S.cols) (h2 : "last_seen_at" ∉ S.cols) (hH : H.cols.Nodup) :
    Table.fillna ((stampNow t S).addMissingCols H.cols) =
      Table.mk (newAllColsOf S H) (S.rows.map (procS t S H)) := by
  rw [stampNow_eq h1 h2, addMissingCols_eq hH]
  unfold Table.fillna newAllColsOf newColsOf driftColsOf procS
  simp only [Table.cols_mk, Table.rows_mk, List.map_map]
  rfl

theorem currF_eq {S H : Table} {t : Nat}
    (h1 : "first_seen_at" ∉ S.cols) (h2 : "last_seen_at" ∉ S.cols)
    (hS : S.cols.Nodup) :
    Table.fillna (H.addMissingCols (stampNow t S).cols) =
      Table.mk (currAllColsOf S H) (H.rows.map (procH S H)) := by
  have hnd : ((stampNow t S).cols).Nodup := by
    rw [stampNow_eq h1 h2]
    simp only [Table.cols_mk]
    rw [List.nodup_append]
    refine ⟨hS, by simp, ?_⟩
    intro a ha hb
    simp only [List.mem_cons, List.mem_singleton, List.not_mem_nil, or_false] at hb
    rcases hb with hb | hb
    · exact h1 (hb ▸ ha)
    · exact h2 (hb ▸ ha)
  rw [addMissingCols_eq hnd]
  rw [stampNow_eq h1 h2]
  unfold Table.fillna currAllColsOf addedColsOf newColsOf procH
  simp only [Table.cols_mk, Table.rows_mk, List.map_map]
  rfl

/-!
Join-key computations for processed rows.
-/

theorem getCell_procS {S H : Table} {t : Nat} {s : Row} {c : String}
    (hs : s.length = S.cols.length) (hc : c ∈ S.cols) :
    getCell (newAllColsOf S H) (procS t S H s) c = fillCell (getCell S.cols s c) := by
  unfold newAllColsOf newColsOf procS
  have hlen1 : ((s ++ [some (Val.time t), some (Val.time t)])
      ++ List.replicate (driftColsOf S H).length none).length =
      ((S.cols ++ ["first_seen_at", "last_seen_at"]) ++ driftColsOf S H).length := by
    simp [hs]
  rw [getCell_map_val fillCell hlen1]
  have hmem : c ∈ (S.cols ++ ["first_seen_at", "last_seen_at"]) ++ driftColsOf S H :=
    List.mem_append.mpr (Or.inl (List.mem_append.mpr (Or.inl hc)))
  rw [if_pos hmem]
  have hlen2 : (s ++ [some (Val.time t), some (Val.time t)]).length =
      (S.cols ++ ["first_seen_at", "last_seen_at"]).length := by
    simp [hs]
  rw [getCell_append hlen2, if_pos (List.mem_append.mpr (Or.inl hc)),
    getCell_append hs, if_pos hc]

theorem getCell_procH {S H : Table} {h : Row} {c : String}
    (hh : h.length = H.cols.length) (hc : c ∈ currAllColsOf S H) :
    getCell (currAllColsOf S H) (procH S H h) c = fillCell (getCell H.cols h c) := by
  unfold currAllColsOf procH
  have hlen1 : (h ++ List.replicate (addedColsOf S H).length none).length =
      (H.cols ++ addedColsOf S H).length := by
    simp [hh]
  rw [getCell_map_val fillCell hlen1]
  unfold currAllColsOf at hc
  rw [if_pos hc, getCell_append hh]
  by_cases hcH : c ∈ H.cols
  · rw [if_pos hcH]
  · rw [if_neg hcH, getCell_replicate, getCell_not_mem hcH]

theorem mem_currAllCols_of_mem_snapshot {S H : Table} {c : String} (hc : c ∈ S.cols) :
    c ∈ currAllColsOf S H := by
  unfold currAllColsOf addedColsOf newColsOf
  by_cases hcH : c ∈ H.cols
  · exact List.mem_append.mpr (Or.inl hcH)
  · refine List.mem_append.mpr (Or.inr ?_)
    rw [List.mem_filter]
    refine ⟨List.mem_append.mpr (Or.inl hc), ?_⟩
    rw [contains_eq_false_of_not_mem hcH]
    rfl

theorem joinKey_procS {S H : Table} {t : Nat} {s : Row}
    (hs : s.length = S.cols.length) :
    joinKeyOf S.cols (newAllColsOf S H) (procS t S H s) = sentinelKey S.cols S.cols s := by
  unfold joinKeyOf sentinelKey
  apply List.map_congr_left
  intro c hc
  exact getCell_procS hs hc

theorem joinKey_procH {S H : Table} {h : Row}
    (hh : h.length = H.cols.length) :
    joinKeyOf S.cols (currAllColsOf S H) (procH S H h) = sentinelKey S.cols H.cols h := by
  unfold joinKeyOf sentinelKey
  apply List.map_congr_left
  intro c hc
  exact getCell_procH hh (mem_currAllCols_of_mem_snapshot hc)

theorem matchesOf_proc {S H : Table} {t : Nat} {s : Row}
    (hs : s.length = S.cols.length) (hH : ∀ r ∈ H.rows, r.length = H.cols.length) :
    matchesOf S.cols (Table.mk (newAllColsOf S H) (S.rows.map (procS t S H)))
        (Table.mk (currAllColsOf S H) (H.rows.map (procH S H))) (procS t S H s) =
      (histMatches S H s).map (procH S H) := by
  unfold matchesOf histMatches
  simp only [Table.cols_mk, Table.rows_mk]
  rw [List.filter_map]
  congr 1
  apply List.filter_congr
  intro h hmem
  simp only [Function.comp_apply]
  rw [joinKey_procH (hH h hmem), joinKey_procS hs]

theorem rightUnmatched_proc {S H : Table} {t : Nat}
    (hS : ∀ r ∈ S.rows, r.length = S.cols.length)
    (hH : ∀ r ∈ H.rows, r.length = H.cols.length) :
    ((Table.mk (currAllColsOf S H) (H.rows.map (procH S H))).rows.filter (fun r =>
        (Table.mk (newAllColsOf S H) (S.rows.map (procS t S H))).rows.all (fun l =>
          !(decide (joinKeyOf S.cols (Table.mk (newAllColsOf S H)
              (S.rows.map (procS t S H))).cols l =
            joinKeyOf S.cols (Table.mk (currAllColsOf S H)
              (H.rows.map (procH S H))).cols r))))) =
      (H.rows.filter (fun h => S.rows.all (fun s =>
        !(decide (sentinelKey S.cols S.cols s = sentinelKey S.cols H.cols h))))).map
        (procH S H) := by
  simp only [Table.cols_mk, Table.rows_mk]
  rw [List.filter_map]
  congr 1
  apply List.filter_congr
  intro h hmem
  simp only [Function.comp_apply]
  rw [all_map_list]
  apply all_congr_list
  intro s hsmem
  rw [joinKey_procH (hH h hmem), joinKey_procS (hS s hsmem)]

/-!
Names and cell lookups inside the joined frame.
-/

theorem endsIn_append2_ne {a b a' b' : Char} (hne : b ≠ b') (d : String) :
    endsIn [a, b] (d ++ String.mk [a', b']) = false := by
  simp only [endsIn, String.data_append]
  simp [List.reverse_append, List.isPrefixOf, hne]

theorem mem_of_contains_eq_true {l : List String} {a : String} (h : l.contains a = true) :
    a ∈ l := by
  by_contra hc
  rw [contains_eq_false_of_not_mem hc] at h
  exact Bool.false_ne_true h

theorem sfx_ne {K : List String} {d e : String} (hm : e ∉ K)
    (hex : endsIn ['_', 'x'] e = false) : suffixIfNotKey K "_x" d ≠ e := by
  unfold suffixIfNotKey
  by_cases hd : K.contains d
  · rw [if_pos hd]
    intro he
    exact hm (he ▸ mem_of_contains_eq_true hd)
  · rw [if_neg hd]
    exact append_x_ne hex

/-- The right non-key columns of the join, which appear suffixed `_y`. -/
def rnColsOf (S H : Table) : List String :=
  (currAllColsOf S H).filter (fun c => !(S.cols.contains c))

/-- The generic shape of a joined row: left block, right non-key block,
indicator. -/
def blockRowOf (S H : Table) (f1 f2 : String → Cell) (ind : Cell) : Row :=
  (newAllColsOf S H).map f1 ++ (rnColsOf S H).map f2 ++ [ind]

/-- The column list of the joined frame. -/
def mergedColsOf (S H : Table) : List String :=
  (newAllColsOf S H).map (suffixIfNotKey S.cols "_x")
    ++ (rnColsOf S H).map (fun c => c ++ "_y") ++ ["_merge"]

theorem getCell_blocks_ind {S H : Table} {f1 f2 : String → Cell} {ind : Cell}
    (hm : "_merge" ∉ S.cols) :
    getCell (mergedColsOf S H) (blockRowOf S H f1 f2 ind) "_merge" = ind := by
  unfold mergedColsOf blockRowOf
  have hlen : ((newAllColsOf S H).map f1 ++ (rnColsOf S H).map f2).length =
      ((newAllColsOf S H).map (suffixIfNotKey S.cols "_x")
        ++ (rnColsOf S H).map (fun c => c ++ "_y")).length := by
    simp
  rw [getCell_append hlen]
  have hmem : "_merge" ∉ (newAllColsOf S H).map (suffixIfNotKey S.cols "_x")
      ++ (rnColsOf S H).map (fun c => c ++ "_y") := by
    intro hmm
    rcases List.mem_append.mp hmm with hmm | hmm
    · rcases List.mem_map.mp hmm with ⟨d, _, he⟩
      exact sfx_ne hm (by decide) he
    · rcases List.mem_map.mp hmm with ⟨d, _, he⟩
      exact append_y_ne (by decide) he
  rw [if_neg hmem]
  simp [getCell]

theorem getCell_blocks_y {S H : Table} {f1 f2 : String → Cell} {ind : Cell} {e : String}
    (hKy : ∀ d ∈ S.cols, endsIn ['_', 'y'] d = false)
    (he : e ∈ rnColsOf S H) :
    getCell (mergedColsOf S H) (blockRowOf S H f1 f2 ind) (e ++ "_y") = f2 e := by
  unfold mergedColsOf blockRowOf
  have hlenOuter : ((newAllColsOf S H).map f1 ++ (rnColsOf S H).map f2).length =
      ((newAllColsOf S H).map (suffixIfNotKey S.cols "_x")
        ++ (rnColsOf S H).map (fun c => c ++ "_y")).length := by
    simp
  rw [getCell_append hlenOuter]
  have hmemX : e ++ "_y" ∉ (newAllColsOf S H).map (suffixIfNotKey S.cols "_x") := by
    intro hmm
    rcases List.mem_map.mp hmm with ⟨d, _, hde⟩
    revert hde
    unfold suffixIfNotKey
    by_cases hd : S.cols.contains d
    · rw [if_pos hd]
      intro hde
      have hy1 : endsIn ['_', 'y'] (e ++ "_y") = true := endsIn_append2 '_' 'y' e
      have hy2 : endsIn ['_', 'y'] d = false := hKy d (mem_of_contains_eq_true hd)
      rw [hde, hy1] at hy2
      exact Bool.noConfusion hy2
    · rw [if_neg hd]
      intro hde
      have hx1 : endsIn ['_', 'x'] (d ++ "_x") = true := endsIn_append2 '_' 'x' d
      have hx2 : endsIn ['_', 'x'] (e ++ "_y") = false := endsIn_append2_ne (by decide) e
      rw [hde, hx2] at hx1
      exact Bool.false_ne_true hx1
  have hmemXY : e ++ "_y" ∈ (newAllColsOf S H).map (suffixIfNotKey S.cols "_x")
      ++ (rnColsOf S H).map (fun c => c ++ "_y") :=
    List.mem_append.mpr (Or.inr (List.mem_map.mpr ⟨e, he, rfl⟩))
  rw [if_pos hmemXY]
  have hlenX : ((newAllColsOf S H).map f1).length =
      ((newAllColsOf S H).map (suffixIfNotKey S.cols "_x")).length := by
    simp
  rw [getCell_append hlenX]
  rw [if_neg hmemX]
  rw [getCell_map_map]
  have hfind : (rnColsOf S H).find? (fun d => (d ++ "_y") == (e ++ "_y")) =
      (rnColsOf S H).find? (fun d => d == e) := by
    apply find?_cong
    intro d _
    by_cases hde : d = e
    · simp [hde]
    · have hne : d ++ "_y" ≠ e ++ "_y" := fun hc => hde (append_suffix_cancel hc)
      simp [hde, hne]
  rw [hfind, find?_beq_self he]

theorem mem_rn_of_stamp {S H : Table} {e : String}
    (he1 : e ∈ newColsOf S) (he2 : e ∉ S.cols) : e ∈ rnColsOf S H := by
  unfold rnColsOf
  rw [List.mem_filter]
  constructor
  · unfold currAllColsOf addedColsOf
    by_cases heH : e ∈ H.cols
    · exact List.mem_append.mpr (Or.inl heH)
    · refine List.mem_append.mpr (Or.inr ?_)
      rw [List.mem_filter]
      refine ⟨he1, ?_⟩
      rw [contains_eq_false_of_not_mem heH]
      rfl
  · rw [contains_eq_false_of_not_mem he2]
    rfl

/-!
Timestamp assignment evaluated on each of the three row shapes.
-/

theorem fsaAssign_both {S H : Table} {t : Nat} {f1 f2 : String → Cell}
    (hm : "_merge" ∉ S.cols) (hKy : ∀ d ∈ S.cols, endsIn ['_', 'y'] d = false)
    (hts1 : "first_seen_at" ∈ rnColsOf S H) :
    fsaAssign t (mergedColsOf S H) (blockRowOf S H f1 f2 (some (Val.str "both"))) =
      f2 "first_seen_at" := by
  unfold fsaAssign
  rw [getCell_blocks_ind hm]
  rw [if_neg (by decide), if_pos rfl]
  have heq : ("first_seen_at_y" : String) = "first_seen_at" ++ "_y" := by decide
  rw [heq]
  exact getCell_blocks_y hKy hts1

theorem fsaAssign_left {S H : Table} {t : Nat} {f1 f2 : String → Cell}
    (hm : "_merge" ∉ S.cols) :
    fsaAssign t (mergedColsOf S H) (blockRowOf S H f1 f2 (some (Val.str "left_only"))) =
      some (Val.time t) := by
  unfold fsaAssign
  rw [getCell_blocks_ind hm]
  rw [if_pos rfl]

theorem fsaAssign_right {S H : Table} {t : Nat} {f1 f2 : String → Cell}
    (hm : "_merge" ∉ S.cols) (hKy : ∀ d ∈ S.cols, endsIn ['_', 'y'] d = false)
    (hts1 : "first_seen_at" ∈ rnColsOf S H) :
    fsaAssign t (mergedColsOf S H) (blockRowOf S H f1 f2 (some (Val.str "right_only"))) =
      f2 "first_seen_at" := by
  unfold fsaAssign
  rw [getCell_blocks_ind hm]
  rw [if_neg (by decide), if_neg (by decide), if_pos rfl]
  have heq : ("first_seen_at_y" : String) = "first_seen_at" ++ "_y" := by decide
  rw [heq]
  exact getCell_blocks_y hKy hts1

theorem lsaAssign_both {S H : Table} {t : Nat} {f1 f2 : String → Cell}
    (hm : "_merge" ∉ S.cols) :
    lsaAssign t (mergedColsOf S H) (blockRowOf S H f1 f2 (some (Val.str "both"))) =
      some (Val.time t) := by
  unfold lsaAssign
  rw [getCell_blocks_ind hm]
  rw [if_neg (by decide), if_pos rfl]

theorem lsaAssign_left {S H : Table} {t : Nat} {f1 f2 : String → Cell}
    (hm : "_merge" ∉ S.cols) :
    lsaAssign t (mergedColsOf S H) (blockRowOf S H f1 f2 (some (Val.str "left_only"))) =
      some (Val.time t) := by
  unfold lsaAssign
  rw [getCell_blocks_ind hm]
  rw [if_pos rfl]

theorem lsaAssign_right {S H : Table} {t : Nat} {f1 f2 : String → Cell}
    (hm : "_merge" ∉ S.cols) (hKy : ∀ d ∈ S.cols, endsIn ['_', 'y'] d = false)
    (hts2 : "last_seen_at" ∈ rnColsOf S H) :
    lsaAssign t (mergedColsOf S H) (blockRowOf S H f1 f2 (some (Val.str "right_only"))) =
      f2 "last_seen_at" := by
  unfold lsaAssign
  rw [getCell_blocks_ind hm]
  rw [if_neg (by decide), if_neg (by decide), if_pos rfl]
  have heq : ("last_seen_at_y" : String) = "last_seen_at" ++ "_y" := by decide
  rw [heq]
  exact getCell_blocks_y hKy hts2

/-!
The combined column-keeping predicate of the two drop statements, evaluated
over the joined frame's column names.
-/

/-- Keep a column iff it is not a named bookkeeping column and does not end in
`_x`/`_y`: the conjunction of the two drops. -/
def keepColP (c : String) : Bool :=
  (!(mergeArtifactCols.contains c)) && (!(endsIn ['_', 'x'] c || endsIn ['_', 'y'] c))

theorem endsIn_x_append (d : String) : endsIn ['_', 'x'] (d ++ "_x") = true :=
  endsIn_append2 '_' 'x' d

theorem endsIn_y_append (d : String) : endsIn ['_', 'y'] (d ++ "_y") = true :=
  endsIn_append2 '_' 'y' d

theorem keepColP_snapshot {c : String} (hcx : endsIn ['_', 'x'] c = false)
    (hcy : endsIn ['_', 'y'] c = false) (hcm : c ≠ "_merge") : keepColP c = true := by
  unfold keepColP
  have hnotmem : c ∉ mergeArtifactCols := by
    unfold mergeArtifactCols
    simp only [List.mem_cons, List.not_mem_nil, or_false]
    intro hmem
    rcases hmem with h | h | h | h | h
    · rw [h] at hcx
      have : endsIn ['_', 'x'] "first_seen_at_x" = true := by decide
      rw [this] at hcx
      exact Bool.noConfusion hcx
    · rw [h] at hcy
      have : endsIn ['_', 'y'] "first_seen_at_y" = true := by decide
      rw [this] at hcy
      exact Bool.noConfusion hcy
    · rw [h] at hcx
      have : endsIn ['_', 'x'] "last_seen_at_x" = true := by decide
      rw [this] at hcx
      exact Bool.noConfusion hcx
    · rw [h] at hcy
      have : endsIn ['_', 'y'] "last_seen_at_y" = true := by decide
      rw [this] at hcy
      exact Bool.noConfusion hcy
    · exact hcm h
  rw [contains_eq_false_of_not_mem hnotmem, hcx, hcy]
  rfl

theorem keepColP_suffix_x (d : String) : keepColP (d ++ "_x") = false := by
  unfold keepColP
  rw [endsIn_x_append]
  simp

theorem keepColP_suffix_y (d : String) : keepColP (d ++ "_y") = false := by
  unfold keepColP
  rw [endsIn_y_append]
  simp

theorem sfx_filterP {S H : Table}
    (hx : ∀ c ∈ S.cols, endsIn ['_', 'x'] c = false)
    (hy : ∀ c ∈ S.cols, endsIn ['_', 'y'] c = false)
    (hm : "_merge" ∉ S.cols)
    (h1 : "first_seen_at" ∉ S.cols) (h2 : "last_seen_at" ∉ S.cols) :
    (newAllColsOf S H).filter (fun d => keepColP (suffixIfNotKey S.cols "_x" d)) =
      S.cols := by
  unfold newAllColsOf newColsOf
  rw [List.filter_append, List.filter_append]
  have hK : S.cols.filter (fun d => keepColP (suffixIfNotKey S.cols "_x" d)) = S.cols := by
    rw [List.filter_eq_self]
    intro d hd
    unfold suffixIfNotKey
    rw [contains_eq_true_of_mem hd]
    simp only [if_true]
    exact keepColP_snapshot (hx d hd) (hy d hd) (fun he => hm (he ▸ hd))
  have hts : (["first_seen_at", "last_seen_at"] : List String).filter
      (fun d => keepColP (suffixIfNotKey S.cols "_x" d)) = [] := by
    rw [List.filter_eq_nil_iff]
    intro d hd
    simp only [List.mem_cons, List.mem_singleton, List.not_mem_nil, or_false] at hd
    rcases hd with hd | hd <;> subst hd
    · unfold suffixIfNotKey
      rw [contains_eq_false_of_not_mem h1]
      simp only [Bool.false_eq_true, if_false]
      decide
    · unfold suffixIfNotKey
      rw [contains_eq_false_of_not_mem h2]
      simp only [Bool.false_eq_true, if_false]
      decide
  have hD : (driftColsOf S H).filter (fun d => keepColP (suffixIfNotKey S.cols "_x" d)) = [] := by
    rw [List.filter_eq_nil_iff]
    intro d hd
    unfold driftColsOf newColsOf at hd
    rw [List.mem_filter] at hd
    have hdS : d ∉ S.cols := by
      intro hmem
      have : (S.cols ++ ["first_seen_at", "last_seen_at"]).contains d =
          true := contains_eq_true_of_mem (List.mem_append.mpr (Or.inl hmem))
      rw [this] at hd
      exact Bool.noConfusion hd.2
    unfold suffixIfNotKey
    rw [contains_eq_false_of_not_mem hdS]
    simp [keepColP_suffix_x]
  rw [hK, hts, hD]
  simp

theorem rn_filterP {S H : Table} :
    (rnColsOf S H).filter (fun d => keepColP (d ++ "_y")) = [] := by
  rw [List.filter_eq_nil_iff]
  intro d _
  simp [keepColP_suffix_y]

theorem filterP_blockRow {S H : Table} {f1 f2 : String → Cell} {ind a b : Cell}
    (hx : ∀ c ∈ S.cols, endsIn ['_', 'x'] c = false)
    (hy : ∀ c ∈ S.cols, endsIn ['_', 'y'] c = false)
    (hm : "_merge" ∉ S.cols)
    (h1 : "first_seen_at" ∉ S.cols) (h2 : "last_seen_at" ∉ S.cols) :
    filterColsRow keepColP (mergedColsOf S H ++ ["first_seen_at", "last_seen_at"])
        (blockRowOf S H f1 f2 ind ++ [a, b]) =
      S.cols.map f1 ++ [a, b] := by
  unfold mergedColsOf blockRowOf
  have hlen1 : ((newAllColsOf S H).map f1 ++ (rnColsOf S H).map f2 ++ [ind]).length =
      ((newAllColsOf S H).map (suffixIfNotKey S.cols "_x")
        ++ (rnColsOf S H).map (fun c => c ++ "_y") ++ ["_merge"]).length := by
    simp
  rw [filterColsRow_append hlen1]
  have hlen2 : ((newAllColsOf S H).map f1 ++ (rnColsOf S H).map f2).length =
      ((newAllColsOf S H).map (suffixIfNotKey S.cols "_x")
        ++ (rnColsOf S H).map (fun c => c ++ "_y")).length := by
    simp
  rw [filterColsRow_append hlen2]
  have hlen3 : ((newAllColsOf S H).map f1).length =
      ((newAllColsOf S H).map (suffixIfNotKey S.cols "_x")).length := by
    simp
  rw [filterColsRow_append hlen3]
  rw [filterColsRow_map (suffixIfNotKey S.cols "_x") f1]
  rw [filterColsRow_map (fun c => c ++ "_y") f2]
  rw [sfx_filterP hx hy hm h1 h2, rn_filterP]
  have hmerge : filterColsRow keepColP ["_merge"] [ind] = [] := by
    have hval : keepColP "_merge" = false := by decide
    simp [filterColsRow, hval]
  have hts12 : filterColsRow keepColP ["first_seen_at", "last_seen_at"] [a, b] = [a, b] := by
    have hv1 : keepColP "first_seen_at" = true := by decide
    have hv2 : keepColP "last_seen_at" = true := by decide
    simp [filterColsRow, hv1, hv2]
  rw [hmerge, hts12]
  simp

theorem filterP_mergedCols {S H : Table}
    (hx : ∀ c ∈ S.cols, endsIn ['_', 'x'] c = false)
    (hy : ∀ c ∈ S.cols, endsIn ['_', 'y'] c = false)
    (hm : "_merge" ∉ S.cols)
    (h1 : "first_seen_at" ∉ S.cols) (h2 : "last_seen_at" ∉ S.cols) :
    (mergedColsOf S H ++ ["first_seen_at", "last_seen_at"]).filter keepColP =
      S.cols ++ ["first_seen_at", "last_seen_at"] := by
  unfold mergedColsOf
  rw [List.filter_append, List.filter_append, List.filter_append]
  rw [List.filter_map, List.filter_map]
  have hsfx : (newAllColsOf S H).filter (keepColP ∘ suffixIfNotKey S.cols "_x") = S.cols :=
    sfx_filterP hx hy hm h1 h2
  rw [hsfx]
  have hrn : (rnColsOf S H).filter (keepColP ∘ (fun c => c ++ "_y")) = [] :=
    rn_filterP
  rw [hrn]
  have hsfx2 : (S.cols).map (suffixIfNotKey S.cols "_x") = S.cols := by
    conv_rhs => rw [← List.map_id S.cols]
    apply List.map_congr_left
    intro d hd
    unfold suffixIfNotKey
    rw [contains_eq_true_of_mem hd]
    rfl
  rw [hsfx2]
  have hmerge : (["_merge"] : List String).filter keepColP = [] := by decide
  have hts : (["first_seen_at", "last_seen_at"] : List String).filter keepColP =
      ["first_seen_at", "last_seen_at"] := by decide
  rw [hmerge, hts]
  simp

/-!
The post-join pipeline (timestamp assignment, drops, sentinel restoration)
evaluated on each row shape.
-/

/-- What the pipeline after the join does to one joined row. -/
def postRowOf (t : Nat) (S H : Table) (ρ : Row) : Row :=
  List.map normCell
    (filterColsRow keepColP (mergedColsOf S H ++ ["first_seen_at", "last_seen_at"])
      (ρ ++ [fsaAssign t (mergedColsOf S H) ρ, lsaAssign t (mergedColsOf S H) ρ]))

theorem ts1_mem_rn {S H : Table} (h1 : "first_seen_at" ∉ S.cols) :
    "first_seen_at" ∈ rnColsOf S H :=
  mem_rn_of_stamp (by simp [newColsOf]) h1

theorem ts2_mem_rn {S H : Table} (h2 : "last_seen_at" ∉ S.cols) :
    "last_seen_at" ∈ rnColsOf S H :=
  mem_rn_of_stamp (by simp [newColsOf]) h2

theorem ts_mem_currAll {S H : Table} {e : String} (he : e ∈ rnColsOf S H) :
    e ∈ currAllColsOf S H :=
  List.mem_of_mem_filter he

theorem postRow_pair {S H : Table} {t : Nat} {s h : Row}
    (hx : ∀ c ∈ S.cols, endsIn ['_', 'x'] c = false)
    (hy : ∀ c ∈ S.cols, endsIn ['_', 'y'] c = false)
    (hm : "_merge" ∉ S.cols)
    (h1 : "first_seen_at" ∉ S.cols) (h2 : "last_seen_at" ∉ S.cols)
    (hs : s.length = S.cols.length) (hh : h.length = H.cols.length) :
    postRowOf t S H
        (blockRowOf S H (getCell (newAllColsOf S H) (procS t S H s))
          (getCell (currAllColsOf S H) (procH S H h)) (some (Val.str "both"))) =
      specMatchedRow t S H s h := by
  unfold postRowOf
  rw [fsaAssign_both hm hy (ts1_mem_rn h1), lsaAssign_both hm]
  rw [filterP_blockRow hx hy hm h1 h2]
  unfold specMatchedRow
  rw [List.map_append, List.map_map]
  have hbus : List.map (normCell ∘ getCell (newAllColsOf S H) (procS t S H s)) S.cols =
      S.cols.map (fun c => normCell (getCell S.cols s c)) := by
    apply List.map_congr_left
    intro c hc
    simp only [Function.comp_apply]
    rw [getCell_procS hs hc, normCell_fillCell]
  rw [hbus, getCell_procH hh (ts_mem_currAll (ts1_mem_rn h1))]
  simp only [List.map_cons, List.map_nil, normCell_fillCell, normCell_time]

theorem postRow_left {S H : Table} {t : Nat} {s : Row}
    (hx : ∀ c ∈ S.cols, endsIn ['_', 'x'] c = false)
    (hy : ∀ c ∈ S.cols, endsIn ['_', 'y'] c = false)
    (hm : "_merge" ∉ S.cols)
    (h1 : "first_seen_at" ∉ S.cols) (h2 : "last_seen_at" ∉ S.cols)
    (hs : s.length = S.cols.length) :
    postRowOf t S H
        (blockRowOf S H (getCell (newAllColsOf S H) (procS t S H s))
          (fun _ => none) (some (Val.str "left_only"))) =
      specNewRow t S s := by
  unfold postRowOf
  rw [fsaAssign_left hm, lsaAssign_left hm]
  rw [filterP_blockRow hx hy hm h1 h2]
  unfold specNewRow
  rw [List.map_append, List.map_map]
  have hbus : List.map (normCell ∘ getCell (newAllColsOf S H) (procS t S H s)) S.cols =
      S.cols.map (fun c => normCell (getCell S.cols s c)) := by
    apply List.map_congr_left
    intro c hc
    simp only [Function.comp_apply]
    rw [getCell_procS hs hc, normCell_fillCell]
  rw [hbus]
  simp only [List.map_cons, List.map_nil, normCell_time]

theorem postRow_right {S H : Table} {t : Nat} {h : Row}
    (hx : ∀ c ∈ S.cols, endsIn ['_', 'x'] c = false)
    (hy : ∀ c ∈ S.cols, endsIn ['_', 'y'] c = false)
    (hm : "_merge" ∉ S.cols)
    (h1 : "first_seen_at" ∉ S.cols) (h2 : "last_seen_at" ∉ S.cols)
    (hh : h.length = H.cols.length) :
    postRowOf t S H
        (blockRowOf S H
          (fun c => if S.cols.contains c then getCell (currAllColsOf S H) (procH S H h) c
            else none)
          (getCell (currAllColsOf S H) (procH S H h)) (some (Val.str "right_only"))) =
      specOldRow S H h := by
  unfold postRowOf
  rw [fsaAssign_right hm hy (ts1_mem_rn h1), lsaAssign_right hm hy (ts2_mem_rn h2)]
  rw [filterP_blockRow hx hy hm h1 h2]
  unfold specOldRow
  rw [List.map_append, List.map_map]
  have hbus : List.map (normCell ∘ fun c =>
      if S.cols.contains c then getCell (currAllColsOf S H) (procH S H h) c else none) S.cols =
      S.cols.map (fun c => normCell (getCell H.cols h c)) := by
    apply List.map_congr_left
    intro c hc
    simp only [Function.comp_apply]
    rw [contains_eq_true_of_mem hc]
    simp only [if_true]
    rw [getCell_procH hh (mem_currAllCols_of_mem_snapshot hc), normCell_fillCell]
  rw [hbus, getCell_procH hh (ts_mem_currAll (ts1_mem_rn h1)),
    getCell_procH hh (ts_mem_currAll (ts2_mem_rn h2))]
  simp only [List.map_cons, List.map_nil, normCell_fillCell]

/-!
The joined frame in closed form, and the main-branch characterization.
-/

theorem outerMerge_proc_eq {S H : Table} {t : Nat}
    (hSlen : ∀ r ∈ S.rows, r.length = S.cols.length)
    (hHlen : ∀ r ∈ H.rows, r.length = H.cols.length) :
    outerMerge S.cols (Table.mk (newAllColsOf S H) (S.rows.map (procS t S H)))
        (Table.mk (currAllColsOf S H) (H.rows.map (procH S H))) =
      Table.mk (mergedColsOf S H)
        ((S.rows.flatMap (fun s =>
            if (histMatches S H s).isEmpty then
              [blockRowOf S H (getCell (newAllColsOf S H) (procS t S H s))
                (fun _ => none) (some (Val.str "left_only"))]
            else (histMatches S H s).map (fun h =>
              blockRowOf S H (getCell (newAllColsOf S H) (procS t S H s))
                (getCell (currAllColsOf S H) (procH S H h)) (some (Val.str "both")))))
          ++ (H.rows.filter (fun h => S.rows.all (fun s =>
                !(decide (sentinelKey S.cols S.cols s = sentinelKey S.cols H.cols h))))).map
              (fun h => blockRowOf S H
                (fun c => if S.cols.contains c then
                  getCell (currAllColsOf S H) (procH S H h) c else none)
                (getCell (currAllColsOf S H) (procH S H h)) (some (Val.str "right_only")))) := by
  unfold outerMerge
  simp only [Table.cols_mk, Table.rows_mk]
  congr 1
  rw [flatMap_map_list]
  congr 1
  · apply List.flatMap_congr
    intro s hs
    rw [matchesOf_proc (hSlen s hs) hHlen, isEmpty_map_list]
    by_cases hcase : (histMatches S H s).isEmpty
    · rw [if_pos hcase, if_pos hcase]
      rfl
    · rw [if_neg hcase, if_neg hcase, List.map_map]
      apply List.map_congr_left
      intro h _
      rfl
  · rw [rightUnmatched_proc hSlen hHlen, List.map_map]
    apply List.map_congr_left
    intro h _
    rfl

theorem blockRowOf_length {S H : Table} {f1 f2 : String → Cell} {ind : Cell} :
    (blockRowOf S H f1 f2 ind).length = (mergedColsOf S H).length := by
  simp [blockRowOf, mergedColsOf]

theorem ts_not_mem_mergedCols {S H : Table} {e : String} (heK : e ∉ S.cols)
    (hex : endsIn ['_', 'x'] e = false) (hey : endsIn ['_', 'y'] e = false)
    (hem : e ≠ "_merge") :
    e ∉ mergedColsOf S H := by
  unfold mergedColsOf
  intro hmem
  rcases List.mem_append.mp hmem with hmem | hmem
  · rcases List.mem_append.mp hmem with hmem | hmem
    · rcases List.mem_map.mp hmem with ⟨d, _, he⟩
      exact sfx_ne heK hex he
    · rcases List.mem_map.mp hmem with ⟨d, _, he⟩
      exact append_y_ne hey he
  · simp only [List.mem_singleton] at hmem
    exact hem hmem

theorem pipeline_after_join {S H : Table} {t : Nat} {R : List Row}
    (hx : ∀ c ∈ S.cols, endsIn ['_', 'x'] c = false)
    (hy : ∀ c ∈ S.cols, endsIn ['_', 'y'] c = false)
    (hm : "_merge" ∉ S.cols)
    (h1 : "first_seen_at" ∉ S.cols) (h2 : "last_seen_at" ∉ S.cols)
    (hRlen : ∀ ρ ∈ R, (mergedColsOf S H).length ≤ ρ.length) :
    Table.replaceSentinel
        (Table.keepCols
          (Table.keepCols (tsAssign t (Table.mk (mergedColsOf S H) R))
            (fun c => !(mergeArtifactCols.contains c)))
          (fun c => !(endsIn ['_', 'x'] c || endsIn ['_', 'y'] c))) =
      Table.mk (S.cols ++ ["first_seen_at", "last_seen_at"]) (R.map (postRowOf t S H)) := by
  have hts1 : "first_seen_at" ∉ (Table.mk (mergedColsOf S H) R).cols := by
    simp only [Table.cols_mk]
    exact ts_not_mem_mergedCols h1 (by decide) (by decide) (by decide)
  have hts2 : "last_seen_at" ∉ (Table.mk (mergedColsOf S H) R).cols := by
    simp only [Table.cols_mk]
    exact ts_not_mem_mergedCols h2 (by decide) (by decide) (by decide)
  have hlen : ∀ r ∈ (Table.mk (mergedColsOf S H) R).rows,
      (Table.mk (mergedColsOf S H) R).cols.length ≤ r.length := by
    simp only [Table.cols_mk, Table.rows_mk]
    exact hRlen
  rw [tsAssign_eq hts1 hts2 hlen]
  simp only [Table.cols_mk, Table.rows_mk]
  rw [keepCols_keepCols]
  unfold Table.replaceSentinel
  simp only [Table.cols_mk, Table.rows_mk, List.map_map]
  congr 1
  exact filterP_mergedCols hx hy hm h1 h2

theorem mergeMainBranch_eq_spec {S H : Table} {t : Nat}
    (hS : SnapshotWf S) (hH : HistoryWf H) :
    mergeMainBranch t S H = mergeSpec t S H := by
  obtain ⟨hKnd, h1, h2, hm, hxy, hSlen⟩ := hS
  obtain ⟨hHnd, hHlen⟩ := hH
  have hx : ∀ c ∈ S.cols, endsIn ['_', 'x'] c = false := fun c hc => (hxy c hc).1
  have hy : ∀ c ∈ S.cols, endsIn ['_', 'y'] c = false := fun c hc => (hxy c hc).2
  unfold mergeMainBranch
  rw [newF_eq h1 h2 hHnd, currF_eq h1 h2 hKnd, outerMerge_proc_eq hSlen hHlen]
  have hRlen : ∀ ρ ∈ ((S.rows.flatMap (fun s =>
      if (histMatches S H s).isEmpty then
        [blockRowOf S H (getCell (newAllColsOf S H) (procS t S H s))
          (fun _ => none) (some (Val.str "left_only"))]
      else (histMatches S H s).map (fun h =>
        blockRowOf S H (getCell (newAllColsOf S H) (procS t S H s))
          (getCell (currAllColsOf S H) (procH S H h)) (some (Val.str "both")))))
      ++ (H.rows.filter (fun h => S.rows.all (fun s =>
            !(decide (sentinelKey S.cols S.cols s = sentinelKey S.cols H.cols h))))).map
          (fun h => blockRowOf S H
            (fun c => if S.cols.contains c then
              getCell (currAllColsOf S H) (procH S H h) c else none)
            (getCell (currAllColsOf S H) (procH S H h)) (some (Val.str "right_only")))),
      (mergedColsOf S H).length ≤ ρ.length := by
    intro ρ hρ
    rcases List.mem_append.mp hρ with hρ | hρ
    · rcases List.mem_flatMap.mp hρ with ⟨s, _, hmem⟩
      by_cases hcase : (histMatches S H s).isEmpty
      · rw [if_pos hcase] at hmem
        simp only [List.mem_singleton] at hmem
        subst hmem
        exact Nat.le_of_eq blockRowOf_length.symm
      · rw [if_neg hcase] at hmem
        rcases List.mem_map.mp hmem with ⟨h, _, he⟩
        rw [← he]
        exact Nat.le_of_eq blockRowOf_length.symm
    · rcases List.mem_map.mp hρ with ⟨h, _, he⟩
      rw [← he]
      exact Nat.le_of_eq blockRowOf_length.symm
  rw [pipeline_after_join hx hy hm h1 h2 hRlen]
  unfold mergeSpec
  congr 1
  rw [List.map_append]
  congr 1
  · rw [List.map_flatMap]
    apply List.flatMap_congr
    intro s hs
    by_cases hcase : (histMatches S H s).isEmpty
    · rw [if_pos hcase, if_pos hcase]
      simp only [List.map_cons, List.map_nil]
      rw [postRow_left hx hy hm h1 h2 (hSlen s hs)]
    · rw [if_neg hcase, if_neg hcase, List.map_map]
      apply List.map_congr_left
      intro h hmem
      have hhH : h ∈ H.rows := List.mem_of_mem_filter hmem
      exact postRow_pair hx hy hm h1 h2 (hSlen s hs) (hHlen h hhH)
  · rw [List.map_map]
    apply List.map_congr_left
    intro h hmem
    have hhH : h ∈ H.rows := List.mem_of_mem_filter hmem
    exact postRow_right hx hy hm h1 h2 (hHlen h hhH)

/-- The full characterization of `merge_with_current_data` on a nonempty
snapshot and nonempty history. -/
theorem merge_main_eq_spec {S H : Table} {t : Nat}
    (hS : SnapshotWf S) (hH : HistoryWf H)
    (hSne : S.rows ≠ []) (hHne : H.rows ≠ []) :
    merge_with_current_data t S (some H) = some (mergeSpec t S H) := by
  unfold merge_with_current_data
  rw [if_neg (by simp [List.length_eq_zero, hSne])]
  simp only []
  rw [if_neg (by simp [List.length_eq_zero, hHne])]
  rw [mergeMainBranch_eq_spec hS hH]

/-!
Helpers for reasoning about the rows of the characterized output.
-/

theorem mem_mergeSpec_rows {S H : Table} {t : Nat} {m : Row}
    (hm : m ∈ (mergeSpec t S H).rows) :
    (∃ s ∈ S.rows, (histMatches S H s).isEmpty ∧ m = specNewRow t S s) ∨
    (∃ s ∈ S.rows, ∃ h ∈ histMatches S H s, m = specMatchedRow t S H s h) ∨
    (∃ h ∈ H.rows,
      (S.rows.all (fun s =>
        !(decide (sentinelKey S.cols S.cols s = sentinelKey S.cols H.cols h)))) = true ∧
      m = specOldRow S H h) := by
  unfold mergeSpec at hm
  simp only [Table.rows_mk] at hm
  rcases List.mem_append.mp hm with hm | hm
  · rcases List.mem_flatMap.mp hm with ⟨s, hs, hmem⟩
    by_cases hcase : (histMatches S H s).isEmpty
    · rw [if_pos hcase] at hmem
      simp only [List.mem_singleton] at hmem
      exact Or.inl ⟨s, hs, hcase, hmem⟩
    · rw [if_neg hcase] at hmem
      rcases List.mem_map.mp hmem with ⟨h, hh, he⟩
      exact Or.inr (Or.inl ⟨s, hs, h, hh, he.symm⟩)
  · rcases List.mem_map.mp hm with ⟨h, hh, he⟩
    rw [List.mem_filter] at hh
    exact Or.inr (Or.inr ⟨h, hh.1, hh.2, he.symm⟩)

theorem getCell_bus_ts1 {cols : List String} {bus : Row} {u v : Cell}
    (hlen : bus.length = cols.length) (h1 : "first_seen_at" ∉ cols) :
    getCell (cols ++ ["first_seen_at", "last_seen_at"]) (bus ++ [u, v])
      "first_seen_at" = u := by
  rw [getCell_append hlen, if_neg h1]
  simp [getCell]

theorem getCell_bus_ts2 {cols : List String} {bus : Row} {u v : Cell}
    (hlen : bus.length = cols.length) (h2 : "last_seen_at" ∉ cols) :
    getCell (cols ++ ["first_seen_at", "last_seen_at"]) (bus ++ [u, v])
      "last_seen_at" = v := by
  rw [getCell_append hlen, if_neg h2]
  simp [getCell]

theorem specNewRow_split {t : Nat} {S : Table} {s : Row} :
    specNewRow t S s = (S.cols.map (fun c => normCell (getCell S.cols s c)))
      ++ [some (Val.time t), some (Val.time t)] := rfl

/-- Claim C5 auxiliary: every history row carries ordered, non-future
timestamps. -/
def HistTsOk (H : Table) (t : Nat) : Prop :=
  ∀ r ∈ H.rows, ∃ a b : Nat,
    getCell H.cols r "first_seen_at" = some (Val.time a) ∧
    getCell H.cols r "last_seen_at" = some (Val.time b) ∧ a ≤ b ∧ b ≤ t

/-- C5: For every row of the table returned by merge_with_current_data (under
the hypothesis that every row of the input history satisfies it and no history
timestamp lies in the future), first_seen_at <= last_seen_at holds: new-only
rows get both equal to the run time, matched rows keep the historical
first_seen_at and get last_seen_at = run time, and history-only rows keep both
timestamps unchanged. -/
theorem timestamp_invariant (S H : Table) (t : Nat)
    (hS : SnapshotWf S) (hH : HistoryWf H) (hts : HistTsOk H t) :
    ∀ M, merge_with_current_data t S (some H) = some M →
      ∀ m ∈ M.rows, ∃ a b : Nat,
        getCell M.cols m "first_seen_at" = some (Val.time a) ∧
        getCell M.cols m "last_seen_at" = some (Val.time b) ∧ a ≤ b := by
  intro M hM m hmem
  obtain ⟨hKnd, h1, h2, hmg, hxy, hSlen⟩ := hS
  by_cases hSne : S.rows = []
  · unfold merge_with_current_data at hM
    rw [if_pos (by simp [hSne])] at hM
    have hMH : H = M := Option.some.inj hM
    subst hMH
    obtain ⟨a, b, ha, hb, hab, _⟩ := hts m hmem
    exact ⟨a, b, ha, hb, hab⟩
  · by_cases hHne : H.rows = []
    · unfold merge_with_current_data at hM
      rw [if_neg (by simp [List.length_eq_zero, hSne])] at hM
      simp only [] at hM
      rw [if_pos (by simp [hHne])] at hM
      have hMS : stampNow t S = M := Option.some.inj hM
      rw [stampNow_eq h1 h2] at hMS
      subst hMS
      simp only [Table.rows_mk, Table.cols_mk] at hmem ⊢
      rcases List.mem_map.mp hmem with ⟨s, hs, he⟩
      subst he
      refine ⟨t, t, ?_, ?_, Nat.le_refl t⟩
      · exact getCell_bus_ts1 (hSlen s hs) h1
      · exact getCell_bus_ts2 (hSlen s hs) h2
    · rw [merge_main_eq_spec ⟨hKnd, h1, h2, hmg, hxy, hSlen⟩ hH hSne hHne] at hM
      have hMspec : mergeSpec t S H = M := Option.some.inj hM
      subst hMspec
      have hcols : (mergeSpec t S H).cols = S.cols ++ ["first_seen_at", "last_seen_at"] := rfl
      rw [hcols]
      rcases mem_mergeSpec_rows hmem with ⟨s, _, _, he⟩ | ⟨s, _, h, hh, he⟩ | ⟨h, hh, _, he⟩
      · subst he
        unfold specNewRow
        refine ⟨t, t, ?_, ?_, Nat.le_refl t⟩
        · exact getCell_bus_ts1 (by simp) h1
        · exact getCell_bus_ts2 (by simp) h2
      · subst he
        have hhH : h ∈ H.rows := List.mem_of_mem_filter hh
        obtain ⟨a, b, ha, hb, hab, hbt⟩ := hts h hhH
        unfold specMatchedRow
        refine ⟨a, t, ?_, ?_, Nat.le_trans hab hbt⟩
        · rw [getCell_bus_ts1 (by simp) h1, ha, normCell_time]
        · exact getCell_bus_ts2 (by simp) h2
      · subst he
        obtain ⟨a, b, ha, hb, hab, _⟩ := hts h hh
        unfold specOldRow
        refine ⟨a, b, ?_, ?_, hab⟩
        · rw [getCell_bus_ts1 (by simp) h1, ha, normCell_time]
        · rw [getCell_bus_ts2 (by simp) h2, hb, normCell_time]

/-!
Helpers for claim C6 and membership in the characterized output.
-/

theorem normCell_ne_placeholder (x : Cell) : normCell x ≠ some placeholder := by
  unfold normCell
  by_cases h : x = some placeholder
  · simp [h]
  · simp [h]

theorem getCell_specRow {cols : List String} {f : String → Cell} {u v : Cell} {c : String}
    (h1 : "first_seen_at" ∉ cols) (h2 : "last_seen_at" ∉ cols) :
    getCell (cols ++ ["first_seen_at", "last_seen_at"]) (cols.map f ++ [u, v]) c =
      if c ∈ cols then f c
      else if c = "first_seen_at" then u
      else if c = "last_seen_at" then v
      else none := by
  rw [getCell_append (by simp)]
  by_cases hc : c ∈ cols
  · rw [if_pos hc, if_pos hc, getCell_map_self hc]
  · rw [if_neg hc, if_neg hc]
    simp only [getCell]
    by_cases hc1 : c = "first_seen_at"
    · subst hc1
      simp
    · have hne1 : ¬("first_seen_at" = c) := fun he => hc1 he.symm
      rw [if_neg hne1, if_neg hc1]
      by_cases hc2 : c = "last_seen_at"
      · subst hc2
        simp
      · have hne2 : ¬("last_seen_at" = c) := fun he => hc2 he.symm
        rw [if_neg hne2, if_neg hc2]

theorem specNew_mem {S H : Table} {t : Nat} {s : Row} (hs : s ∈ S.rows)
    (hemp : (histMatches S H s).isEmpty) :
    specNewRow t S s ∈ (mergeSpec t S H).rows := by
  unfold mergeSpec
  simp only [Table.rows_mk]
  refine List.mem_append.mpr (Or.inl ?_)
  refine List.mem_flatMap.mpr ⟨s, hs, ?_⟩
  rw [if_pos hemp]
  exact List.mem_singleton.mpr rfl

theorem specMatched_mem {S H : Table} {t : Nat} {s h : Row} (hs : s ∈ S.rows)
    (hh : h ∈ histMatches S H s) :
    specMatchedRow t S H s h ∈ (mergeSpec t S H).rows := by
  unfold mergeSpec
  simp only [Table.rows_mk]
  refine List.mem_append.mpr (Or.inl ?_)
  refine List.mem_flatMap.mpr ⟨s, hs, ?_⟩
  have hne : (histMatches S H s).isEmpty = false := by
    rw [List.isEmpty_eq_false]
    intro hnil
    rw [hnil] at hh
    exact List.not_mem_nil h hh
  rw [if_neg (by simp [hne])]
  exact List.mem_map.mpr ⟨h, hh, rfl⟩

theorem specOld_mem {S H : Table} {t : Nat} {h : Row} (hh : h ∈ H.rows)
    (hall : (S.rows.all (fun s =>
      !(decide (sentinelKey S.cols S.cols s = sentinelKey S.cols H.cols h)))) = true) :
    specOldRow S H h ∈ (mergeSpec t S H).rows := by
  unfold mergeSpec
  simp only [Table.rows_mk]
  refine List.mem_append.mpr (Or.inr ?_)
  refine List.mem_map.mpr ⟨h, ?_, rfl⟩
  rw [List.mem_filter]
  exact ⟨hh, hall⟩

theorem sentinelKey_pointwise {S H : Table} {s h : Row}
    (he : sentinelKey S.cols S.cols s = sentinelKey S.cols H.cols h) :
    ∀ c ∈ S.cols, normCell (getCell S.cols s c) = normCell (getCell H.cols h c) := by
  intro c hc
  unfold sentinelKey at he
  have hpt := List.map_inj_left.mp he c hc
  exact fillCell_eq_iff.mp hpt

/-- C6: When both inputs to merge_with_current_data are non-empty, every
business-column value that is the literal string '___NULL___' in either input
table appears as null in the returned table; the reserved placeholder is an
ordinary string, so a real input value equal to it is indistinguishable from a
missing value and is not preserved verbatim through the merge. -/
theorem sentinel_collision (S H : Table) (t : Nat)
    (hS : SnapshotWf S) (hH : HistoryWf H)
    (hSne : S.rows ≠ []) (hHne : H.rows ≠ []) :
    ∀ M, merge_with_current_data t S (some H) = some M →
      (∀ m ∈ M.rows, ∀ c : String, getCell M.cols m c ≠ some (Val.str "___NULL___")) ∧
      (∀ s ∈ S.rows, ∃ m ∈ M.rows, ∀ c ∈ S.cols,
        getCell M.cols m c = normCell (getCell S.cols s c)) ∧
      (∀ h ∈ H.rows, ∃ m ∈ M.rows, ∀ c ∈ S.cols,
        getCell M.cols m c = normCell (getCell H.cols h c)) := by
  intro M hM
  obtain ⟨hKnd, h1, h2, hmg, hxy, hSlen⟩ := hS
  rw [merge_main_eq_spec ⟨hKnd, h1, h2, hmg, hxy, hSlen⟩ hH hSne hHne] at hM
  have hMspec : mergeSpec t S H = M := Option.some.inj hM
  subst hMspec
  have hcols : (mergeSpec t S H).cols = S.cols ++ ["first_seen_at", "last_seen_at"] := rfl
  refine ⟨?_, ?_, ?_⟩
  · intro m hmem c
    rw [hcols]
    rcases mem_mergeSpec_rows hmem with ⟨s, _, _, he⟩ | ⟨s, _, h, _, he⟩ | ⟨h, _, _, he⟩
    · subst he
      unfold specNewRow
      rw [getCell_specRow h1 h2]
      by_cases hc : c ∈ S.cols
      · rw [if_pos hc]
        exact normCell_ne_placeholder _
      · rw [if_neg hc]
        by_cases hc1 : c = "first_seen_at"
        · simp [hc1, placeholder]
        · by_cases hc2 : c = "last_seen_at" <;> simp [hc1, hc2, placeholder]
    · subst he
      unfold specMatchedRow
      rw [getCell_specRow h1 h2]
      by_cases hc : c ∈ S.cols
      · rw [if_pos hc]
        exact normCell_ne_placeholder _
      · rw [if_neg hc]
        by_cases hc1 : c = "first_seen_at"
        · rw [if_pos hc1]
          exact normCell_ne_placeholder _
        · by_cases hc2 : c = "last_seen_at" <;> simp [hc1, hc2, placeholder]
    · subst he
      unfold specOldRow
      rw [getCell_specRow h1 h2]
      by_cases hc : c ∈ S.cols
      · rw [if_pos hc]
        exact normCell_ne_placeholder _
      · rw [if_neg hc]
        by_cases hc1 : c = "first_seen_at"
        · rw [if_pos hc1]
          exact normCell_ne_placeholder _
        · rw [if_neg hc1]
          by_cases hc2 : c = "last_seen_at"
          · rw [if_pos hc2]
            exact normCell_ne_placeholder _
          · rw [if_neg hc2]
            simp
  · intro s hs
    by_cases hcase : (histMatches S H s).isEmpty
    · refine ⟨specNewRow t S s, specNew_mem hs hcase, ?_⟩
      intro c hc
      rw [hcols]
      unfold specNewRow
      rw [getCell_specRow h1 h2, if_pos hc]
    · have hne : histMatches S H s ≠ [] := by
        intro hnil
        rw [hnil] at hcase
        exact hcase rfl
      obtain ⟨h, hh⟩ := List.exists_mem_of_ne_nil _ hne
      refine ⟨specMatchedRow t S H s h, specMatched_mem hs hh, ?_⟩
      intro c hc
      rw [hcols]
      unfold specMatchedRow
      rw [getCell_specRow h1 h2, if_pos hc]
  · intro h hh
    by_cases hall : (S.rows.all (fun s =>
        !(decide (sentinelKey S.cols S.cols s = sentinelKey S.cols H.cols h)))) = true
    · refine ⟨specOldRow S H h, specOld_mem hh hall, ?_⟩
      intro c hc
      rw [hcols]
      unfold specOldRow
      rw [getCell_specRow h1 h2, if_pos hc]
    · have hall2 : (S.rows.all (fun s =>
          !(decide (sentinelKey S.cols S.cols s = sentinelKey S.cols H.cols h)))) = false := by
        cases hb : (S.rows.all (fun s =>
            !(decide (sentinelKey S.cols S.cols s = sentinelKey S.cols H.cols h))))
        · rfl
        · exact absurd hb hall
      rw [List.all_eq_false] at hall2
      obtain ⟨s, hs, hsk⟩ := hall2
      have hkey : sentinelKey S.cols S.cols s = sentinelKey S.cols H.cols h := by
        by_contra hne
        simp [hne] at hsk
      have hhm : h ∈ histMatches S H s := by
        unfold histMatches
        rw [List.mem_filter]
        exact ⟨hh, by simp [hkey.symm]⟩
      refine ⟨specMatchedRow t S H s h, specMatched_mem hs hhm, ?_⟩
      intro c hc
      rw [hcols]
      unfold specMatchedRow
      rw [getCell_specRow h1 h2, if_pos hc]
      exact sentinelKey_pointwise hkey c hc

/-!
Claim C3: null-safe matching.
-/

theorem sentinelKey_eq_of_normCell_eq {keyCols cols1 cols2 : List String} {r1 r2 : Row}
    (h : ∀ c ∈ keyCols, normCell (getCell cols1 r1 c) = normCell (getCell cols2 r2 c)) :
    sentinelKey keyCols cols1 r1 = sentinelKey keyCols cols2 r2 := by
  unfold sentinelKey
  apply List.map_congr_left
  intro c hc
  exact fillCell_eq_iff.mpr (h c hc)

/-- C3: For every snapshot row and history row that are identical on every
business column, including columns where both sides hold null in the same
position, merge_with_current_data recognizes them as the same row: the output
contains one such row with first_seen_at taken from the history row and
last_seen_at set to the current run time, rather than two rows (a fresh one
and a frozen one): every output row carrying this business tuple has
first_seen_at from the history row and last_seen_at equal to the run time. -/
theorem null_safe_matching (S H : Table) (t : Nat)
    (hS : SnapshotWf S) (hH : HistoryWf H)
    (hHkeys : (H.rows.map (sentinelKey S.cols H.cols)).Nodup)
    (s h : Row) (hs : s ∈ S.rows) (hh : h ∈ H.rows)
    (hsame : ∀ c ∈ S.cols, getCell S.cols s c = getCell H.cols h c) :
    ∀ M, merge_with_current_data t S (some H) = some M →
      (∃ m ∈ M.rows,
        (∀ c ∈ S.cols, getCell M.cols m c = normCell (getCell S.cols s c)) ∧
        getCell M.cols m "first_seen_at" = normCell (getCell H.cols h "first_seen_at") ∧
        getCell M.cols m "last_seen_at" = some (Val.time t)) ∧
      (∀ m ∈ M.rows,
        (∀ c ∈ S.cols, getCell M.cols m c = normCell (getCell S.cols s c)) →
        getCell M.cols m "first_seen_at" = normCell (getCell H.cols h "first_seen_at") ∧
        getCell M.cols m "last_seen_at" = some (Val.time t)) := by
  intro M hM
  obtain ⟨hKnd, h1, h2, hmg, hxy, hSlen⟩ := hS
  have hSne : S.rows ≠ [] := fun hnil => by
    rw [hnil] at hs
    exact List.not_mem_nil s hs
  have hHne : H.rows ≠ [] := fun hnil => by
    rw [hnil] at hh
    exact List.not_mem_nil h hh
  rw [merge_main_eq_spec ⟨hKnd, h1, h2, hmg, hxy, hSlen⟩ hH hSne hHne] at hM
  have hMspec : mergeSpec t S H = M := Option.some.inj hM
  subst hMspec
  have hcols : (mergeSpec t S H).cols = S.cols ++ ["first_seen_at", "last_seen_at"] := rfl
  have hkey : sentinelKey S.cols S.cols s = sentinelKey S.cols H.cols h := by
    unfold sentinelKey
    apply List.map_congr_left
    intro c hc
    rw [hsame c hc]
  have hhm : h ∈ histMatches S H s := by
    unfold histMatches
    rw [List.mem_filter]
    exact ⟨hh, by simp [hkey.symm]⟩
  constructor
  · refine ⟨specMatchedRow t S H s h, specMatched_mem hs hhm, ?_, ?_, ?_⟩
    · intro c hc
      rw [hcols]
      unfold specMatchedRow
      rw [getCell_specRow h1 h2, if_pos hc]
    · rw [hcols]
      unfold specMatchedRow
      rw [getCell_specRow h1 h2, if_neg h1]
      simp
    · rw [hcols]
      unfold specMatchedRow
      rw [getCell_specRow h1 h2, if_neg h2]
      simp
  · intro m hmem hbus
    rw [hcols] at hbus ⊢
    rcases mem_mergeSpec_rows hmem with ⟨s2, hs2, hemp, he⟩ | ⟨s2, hs2, h2r, hh2, he⟩ |
      ⟨h2r, hh2, hall, he⟩
    · exfalso
      subst he
      have hbus2 : ∀ c ∈ S.cols,
          normCell (getCell S.cols s2 c) = normCell (getCell S.cols s c) := by
        intro c hc
        have hb := hbus c hc
        unfold specNewRow at hb
        rw [getCell_specRow h1 h2, if_pos hc] at hb
        exact hb
      have hk2 : sentinelKey S.cols S.cols s2 = sentinelKey S.cols H.cols h :=
        (sentinelKey_eq_of_normCell_eq hbus2).trans hkey
      have hhm2 : h ∈ histMatches S H s2 := by
        unfold histMatches
        rw [List.mem_filter]
        exact ⟨hh, by simp [hk2.symm]⟩
      rw [List.isEmpty_iff] at hemp
      rw [hemp] at hhm2
      exact List.not_mem_nil h hhm2
    · subst he
      have hbus2 : ∀ c ∈ S.cols,
          normCell (getCell S.cols s2 c) = normCell (getCell S.cols s c) := by
        intro c hc
        have hb := hbus c hc
        unfold specMatchedRow at hb
        rw [getCell_specRow h1 h2, if_pos hc] at hb
        exact hb
      have hk2 : sentinelKey S.cols H.cols h2r = sentinelKey S.cols H.cols h := by
        unfold histMatches at hh2
        rw [List.mem_filter] at hh2
        have hk3 : sentinelKey S.cols H.cols h2r = sentinelKey S.cols S.cols s2 := by
          have := hh2.2
          simp only [decide_eq_true_eq] at this
          exact this
        rw [hk3]
        exact (sentinelKey_eq_of_normCell_eq hbus2).trans hkey
      have hher : h2r ∈ H.rows := by
        unfold histMatches at hh2
        rw [List.mem_filter] at hh2
        exact hh2.1
      have heq : h2r = h := List.inj_on_of_nodup_map hHkeys hher hh hk2
      subst heq
      unfold specMatchedRow
      constructor
      · rw [getCell_specRow h1 h2, if_neg h1]
        simp
      · rw [getCell_specRow h1 h2, if_neg h2]
        simp
    · exfalso
      subst he
      have hbus2 : ∀ c ∈ S.cols,
          normCell (getCell H.cols h2r c) = normCell (getCell S.cols s c) := by
        intro c hc
        have hb := hbus c hc
        unfold specOldRow at hb
        rw [getCell_specRow h1 h2, if_pos hc] at hb
        exact hb
      have hk2 : sentinelKey S.cols S.cols s = sentinelKey S.cols H.cols h2r :=
        (sentinelKey_eq_of_normCell_eq (fun c hc => (hbus2 c hc).symm))
      rw [List.all_eq_true] at hall
      have := hall s hs
      simp only [Bool.not_eq_true', decide_eq_false_iff_not] at this
      exact this hk2

/-!
Helpers for claim C1: the second run over the characterized output.
-/

theorem selfMap_getCell {cols : List String} {r : Row}
    (hnd : cols.Nodup) (hlen : r.length = cols.length) :
    cols.map (getCell cols r) = r := by
  induction cols generalizing r with
  | nil =>
    cases r with
    | nil => rfl
    | cons v vs => simp at hlen
  | cons c cs ih =>
    cases r with
    | nil => simp at hlen
    | cons v vs =>
      simp only [List.length_cons, Nat.succ.injEq] at hlen
      have hnotin : c ∉ cs := (List.nodup_cons.mp hnd).1
      simp only [List.map_cons]
      congr 1
      · simp [getCell]
      · have hpt : ∀ d ∈ cs, getCell (c :: cs) (v :: vs) d = getCell cs vs d := by
          intro d hd
          have hne : c ≠ d := fun he => hnotin (he ▸ hd)
          simp [getCell, hne]
        rw [List.map_congr_left hpt]
        exact ih (List.nodup_cons.mp hnd).2 hlen

theorem normCell_eq_self {x : Cell} (h : x ≠ some placeholder) : normCell x = x := by
  unfold normCell
  rw [if_neg h]

theorem set_bus_last {bus : Row} {u v w : Cell} {n : Nat} (hn : bus.length = n) :
    (bus ++ [u, v]).set (n + 1) w = bus ++ [u, w] := by
  subst hn
  rw [List.set_append_right _ _ (by omega)]
  congr 1
  have hidx : bus.length + 1 - bus.length = 1 := by omega
  rw [hidx]
  rfl

theorem filter_flatMap_list {l : List α} {g : α → List β} {p : β → Bool} :
    (l.flatMap g).filter p = l.flatMap (fun x => (g x).filter p) := by
  induction l with
  | nil => rfl
  | cons x xs ih => simp [List.flatMap_cons, List.filter_append, ih]

theorem flatMap_eq_nil_of_forall {l : List α} {g : α → List β}
    (h : ∀ x ∈ l, g x = []) : l.flatMap g = [] := by
  induction l with
  | nil => rfl
  | cons x xs ih =>
    simp only [List.flatMap_cons]
    rw [h x (List.mem_cons_self x xs), List.nil_append]
    exact ih (fun y hy => h y (List.mem_cons_of_mem _ hy))

theorem flatMap_single_key {l : List α} {k : α → κ} {g : α → List β} {s : α}
    (hnd : (l.map k).Nodup) (hs : s ∈ l) [DecidableEq κ] :
    l.flatMap (fun x => if k x = k s then g x else []) = g s := by
  induction l with
  | nil => simp at hs
  | cons x xs ih =>
    simp only [List.map_cons, List.nodup_cons] at hnd
    rcases List.mem_cons.mp hs with he | hmem
    · subst he
      simp only [List.flatMap_cons, if_pos rfl]
      have hrest : xs.flatMap (fun y => if k y = k s then g y else []) = [] := by
        apply flatMap_eq_nil_of_forall
        intro y hy
        have hne : k y ≠ k s := by
          intro heq
          exact hnd.1 (heq ▸ List.mem_map.mpr ⟨y, hy, rfl⟩)
        rw [if_neg hne]
      rw [hrest, List.append_nil]
      simp
    · have hne : k x ≠ k s := by
        intro heq
        exact hnd.1 (heq ▸ List.mem_map.mpr ⟨s, hmem, rfl⟩)
      simp only [List.flatMap_cons, if_neg hne, List.nil_append]
      exact ih hnd.2 hmem

theorem mergeSpec_row_len {S H : Table} {t : Nat} {m : Row}
    (hm : m ∈ (mergeSpec t S H).rows) : m.length = S.cols.length + 2 := by
  rcases mem_mergeSpec_rows hm with ⟨s, _, _, he⟩ | ⟨s, _, h, _, he⟩ | ⟨h, _, _, he⟩ <;>
    subst he <;> simp [specNewRow, specMatchedRow, specOldRow]

theorem mergeSpec_historyWf {S H : Table} {t : Nat}
    (hKnd : S.cols.Nodup) (h1 : "first_seen_at" ∉ S.cols) (h2 : "last_seen_at" ∉ S.cols) :
    HistoryWf (mergeSpec t S H) := by
  constructor
  · show (S.cols ++ ["first_seen_at", "last_seen_at"]).Nodup
    rw [List.nodup_append]
    refine ⟨hKnd, by simp, ?_⟩
    intro a ha hb
    simp only [List.mem_cons, List.mem_singleton, List.not_mem_nil, or_false] at hb
    rcases hb with hb | hb
    · exact h1 (hb ▸ ha)
    · exact h2 (hb ▸ ha)
  · intro r hr
    have hlen := mergeSpec_row_len hr
    simp only [mergeSpec, Table.cols_mk]
    simp [hlen]

theorem mergeSpec_rows_ne_nil {S H : Table} {t : Nat} (hSne : S.rows ≠ []) :
    (mergeSpec t S H).rows ≠ [] := by
  unfold mergeSpec
  simp only [Table.rows_mk]
  intro hnil
  rcases List.append_eq_nil.mp hnil with ⟨hleft, _⟩
  cases hrows : S.rows with
  | nil => exact hSne hrows
  | cons s rest =>
    rw [hrows] at hleft
    simp only [List.flatMap_cons] at hleft
    rcases List.append_eq_nil.mp hleft with ⟨hbr, _⟩
    by_cases hcase : (histMatches S H s).isEmpty
    · rw [if_pos hcase] at hbr
      exact List.cons_ne_nil _ _ hbr
    · rw [if_neg hcase] at hbr
      rw [List.map_eq_nil_iff] at hbr
      rw [hbr] at hcase
      exact hcase rfl

theorem stamp_eq_mergeSpec {S H : Table} {t : Nat}
    (hKnd : S.cols.Nodup) (h1 : "first_seen_at" ∉ S.cols) (h2 : "last_seen_at" ∉ S.cols)
    (hSlen : ∀ r ∈ S.rows, r.length = S.cols.length)
    (hnoph : ∀ r ∈ S.rows, some placeholder ∉ r)
    (hHne : H.rows = []) :
    stampNow t S = mergeSpec t S H := by
  rw [stampNow_eq h1 h2]
  unfold mergeSpec
  congr 1
  have hmatches : ∀ s : Row, histMatches S H s = [] := by
    intro s
    unfold histMatches
    rw [hHne]
    rfl
  have hright : (H.rows.filter (fun h => S.rows.all (fun s =>
      !(decide (sentinelKey S.cols S.cols s = sentinelKey S.cols H.cols h))))).map
        (specOldRow S H) = [] := by
    rw [hHne]
    rfl
  rw [hright, List.append_nil]
  have hleft : S.rows.flatMap (fun s =>
      if (histMatches S H s).isEmpty then [specNewRow t S s]
      else (histMatches S H s).map (specMatchedRow t S H s)) =
      S.rows.map (fun s => specNewRow t S s) := by
    induction S.rows with
    | nil => rfl
    | cons s rest ih =>
      simp only [List.flatMap_cons, List.map_cons]
      rw [hmatches s]
      simp only [List.isEmpty_nil, if_true]
      rw [ih]
      rfl
  rw [hleft]
  apply List.map_congr_left
  intro s hs
  unfold specNewRow
  congr 1
  have hself : S.cols.map (getCell S.cols s) = s := selfMap_getCell hKnd (hSlen s hs)
  have hmap : S.cols.map (fun c => normCell (getCell S.cols s c)) =
      (S.cols.map (getCell S.cols s)).map normCell := by
    rw [List.map_map]
    rfl
  rw [hmap, hself]
  have hng : List.map normCell s = s := by
    conv_rhs => rw [← List.map_id s]
    apply List.map_congr_left
    intro v hv
    rw [normCell_eq_self (fun he => hnoph s hs (he ▸ hv))]
    rfl
  rw [hng]

/-- The output rows a single snapshot row contributes to the merge. -/
def blockOf (t : Nat) (S H : Table) (s : Row) : List Row :=
  if (histMatches S H s).isEmpty then [specNewRow t S s]
  else (histMatches S H s).map (specMatchedRow t S H s)

/-- The output rows contributed by unmatched history rows. -/
def oldRowsOf (S H : Table) : List Row :=
  (H.rows.filter (fun h => S.rows.all (fun s =>
    !(decide (sentinelKey S.cols S.cols s = sentinelKey S.cols H.cols h))))).map
    (specOldRow S H)

theorem mergeSpec_rows_eq {t : Nat} {S H : Table} :
    (mergeSpec t S H).rows = S.rows.flatMap (blockOf t S H) ++ oldRowsOf S H := rfl

theorem blockOf_ne_nil {t : Nat} {S H : Table} {s : Row} : blockOf t S H s ≠ [] := by
  unfold blockOf
  by_cases hcase : (histMatches S H s).isEmpty
  · rw [if_pos hcase]
    exact List.cons_ne_nil _ _
  · rw [if_neg hcase]
    intro hnil
    rw [List.map_eq_nil_iff] at hnil
    rw [hnil] at hcase
    exact hcase rfl

theorem mem_blockOf {t : Nat} {S H : Table} {s m : Row} (hm : m ∈ blockOf t S H s) :
    m = specNewRow t S s ∨ ∃ h ∈ histMatches S H s, m = specMatchedRow t S H s h := by
  unfold blockOf at hm
  by_cases hcase : (histMatches S H s).isEmpty
  · rw [if_pos hcase] at hm
    exact Or.inl (List.mem_singleton.mp hm)
  · rw [if_neg hcase] at hm
    rcases List.mem_map.mp hm with ⟨h, hh, he⟩
    exact Or.inr ⟨h, hh, he.symm⟩

theorem sentinelKey_busRow {cols : List String} {g : String → Cell} {u v : Cell} :
    sentinelKey cols (cols ++ ["first_seen_at", "last_seen_at"]) (cols.map g ++ [u, v]) =
      cols.map (fun c => fillCell (g c)) := by
  unfold sentinelKey
  apply List.map_congr_left
  intro c hc
  rw [getCell_append (by simp), if_pos hc, getCell_map_self hc]

theorem key_specNewRow {S : Table} {t : Nat} {s : Row} :
    sentinelKey S.cols (S.cols ++ ["first_seen_at", "last_seen_at"]) (specNewRow t S s) =
      sentinelKey S.cols S.cols s := by
  unfold specNewRow
  rw [sentinelKey_busRow]
  unfold sentinelKey
  apply List.map_congr_left
  intro c _
  exact fillCell_normCell _

theorem key_specMatchedRow {S H : Table} {t : Nat} {s h : Row} :
    sentinelKey S.cols (S.cols ++ ["first_seen_at", "last_seen_at"])
        (specMatchedRow t S H s h) =
      sentinelKey S.cols S.cols s := by
  unfold specMatchedRow
  rw [sentinelKey_busRow]
  unfold sentinelKey
  apply List.map_congr_left
  intro c _
  exact fillCell_normCell _

theorem key_specOldRow {S H : Table} {h : Row} :
    sentinelKey S.cols (S.cols ++ ["first_seen_at", "last_seen_at"]) (specOldRow S H h) =
      sentinelKey S.cols H.cols h := by
  unfold specOldRow
  rw [sentinelKey_busRow]
  unfold sentinelKey
  apply List.map_congr_left
  intro c _
  exact fillCell_normCell _

theorem blockOf_key {t : Nat} {S H : Table} {s m : Row} (hm : m ∈ blockOf t S H s) :
    sentinelKey S.cols (S.cols ++ ["first_seen_at", "last_seen_at"]) m =
      sentinelKey S.cols S.cols s := by
  rcases mem_blockOf hm with he | ⟨h, _, he⟩
  · subst he
    exact key_specNewRow
  · subst he
    exact key_specMatchedRow

theorem table_ext {A B : Table} (hc : A.cols = B.cols) (hr : A.rows = B.rows) : A = B := by
  cases A
  cases B
  cases hc
  cases hr
  rfl

theorem mergeSpec_cols {t : Nat} {S H : Table} :
    (mergeSpec t S H).cols = S.cols ++ ["first_seen_at", "last_seen_at"] := rfl

theorem specMatchedRow_split {t : Nat} {S H : Table} {s h : Row} :
    specMatchedRow t S H s h = (S.cols.map (fun c => normCell (getCell S.cols s c)))
      ++ [normCell (getCell H.cols h "first_seen_at"), some (Val.time t)] := rfl

theorem specOldRow_split {S H : Table} {h : Row} :
    specOldRow S H h = (S.cols.map (fun c => normCell (getCell H.cols h c)))
      ++ [normCell (getCell H.cols h "first_seen_at"),
          normCell (getCell H.cols h "last_seen_at")] := rfl

theorem flatMap_congr_mem {l : List α} {f g : α → List β}
    (h : ∀ x ∈ l, f x = g x) : l.flatMap f = l.flatMap g := by
  induction l with
  | nil => rfl
  | cons x xs ih =>
    simp only [List.flatMap_cons]
    rw [h x (List.mem_cons_self x xs),
      ih (fun y hy => h y (List.mem_cons_of_mem _ hy))]

theorem specMatchedRow_stable {S M : Table} {t2 : Nat} {s m : Row} {u w : Cell}
    (hcols : M.cols = S.cols ++ ["first_seen_at", "last_seen_at"])
    (h1 : "first_seen_at" ∉ S.cols)
    (hm : m = (S.cols.map (fun c => normCell (getCell S.cols s c))) ++ [u, w])
    (hu : normCell u = u) :
    specMatchedRow t2 S M s m =
      (S.cols.map (fun c => normCell (getCell S.cols s c)))
        ++ [u, some (Val.time t2)] := by
  subst hm
  rw [specMatchedRow_split, hcols, getCell_bus_ts1 (by simp) h1, hu]

theorem specOldRow_mergeSpec {S H : Table} {t1 : Nat} {h : Row}
    (h1 : "first_seen_at" ∉ S.cols) (h2 : "last_seen_at" ∉ S.cols) :
    specOldRow S (mergeSpec t1 S H) (specOldRow S H h) = specOldRow S H h := by
  conv_lhs => rw [specOldRow_split]
  rw [mergeSpec_cols]
  conv_rhs => rw [specOldRow_split]
  congr 1
  · apply List.map_congr_left
    intro c hc
    rw [specOldRow_split, getCell_append (by simp), if_pos hc, getCell_map_self hc,
      normCell_idem]
  · rw [specOldRow_split, getCell_bus_ts1 (by simp) h1, getCell_bus_ts2 (by simp) h2,
      normCell_idem, normCell_idem]

theorem histMatches_mergeSpec {S H : Table} {t1 : Nat} {s : Row}
    (hSkeys : (S.rows.map (sentinelKey S.cols S.cols)).Nodup) (hs : s ∈ S.rows) :
    histMatches S (mergeSpec t1 S H) s = blockOf t1 S H s := by
  unfold histMatches
  rw [mergeSpec_cols, mergeSpec_rows_eq, List.filter_append, filter_flatMap_list]
  have hfun : ∀ x ∈ S.rows,
      (blockOf t1 S H x).filter (fun h =>
        decide (sentinelKey S.cols (S.cols ++ ["first_seen_at", "last_seen_at"]) h =
          sentinelKey S.cols S.cols s)) =
      (if sentinelKey S.cols S.cols x = sentinelKey S.cols S.cols s
        then blockOf t1 S H x else []) := by
    intro x _
    by_cases hkey : sentinelKey S.cols S.cols x = sentinelKey S.cols S.cols s
    · rw [if_pos hkey]
      apply List.filter_eq_self.mpr
      intro m hm
      rw [blockOf_key hm, hkey]
      exact decide_eq_true rfl
    · rw [if_neg hkey]
      apply List.filter_eq_nil_iff.mpr
      intro m hm
      rw [blockOf_key hm]
      simp [hkey]
  have hold : (oldRowsOf S H).filter (fun h =>
      decide (sentinelKey S.cols (S.cols ++ ["first_seen_at", "last_seen_at"]) h =
        sentinelKey S.cols S.cols s)) = [] := by
    unfold oldRowsOf
    rw [List.filter_map, List.map_eq_nil_iff]
    apply List.filter_eq_nil_iff.mpr
    intro h hh
    rw [List.mem_filter] at hh
    have hcond := (List.all_eq_true.mp hh.2) s hs
    simp only [Bool.not_eq_true', decide_eq_false_iff_not] at hcond
    intro hp
    simp only [Function.comp] at hp
    rw [key_specOldRow, decide_eq_true_iff] at hp
    exact hcond hp.symm
  rw [flatMap_congr_mem hfun, flatMap_single_key hSkeys hs, hold, List.append_nil]

theorem oldRows_mergeSpec {S H : Table} {t1 : Nat} :
    (mergeSpec t1 S H).rows.filter (fun h => S.rows.all (fun s =>
        !(decide (sentinelKey S.cols S.cols s =
          sentinelKey S.cols (mergeSpec t1 S H).cols h)))) = oldRowsOf S H := by
  rw [mergeSpec_cols, mergeSpec_rows_eq, List.filter_append, filter_flatMap_list]
  have hleft : S.rows.flatMap (fun x => (blockOf t1 S H x).filter (fun h =>
      S.rows.all (fun s => !(decide (sentinelKey S.cols S.cols s =
        sentinelKey S.cols (S.cols ++ ["first_seen_at", "last_seen_at"]) h))))) = [] := by
    apply flatMap_eq_nil_of_forall
    intro x hx
    apply List.filter_eq_nil_iff.mpr
    intro m hm
    intro hall
    have hx2 := (List.all_eq_true.mp hall) x hx
    rw [blockOf_key hm] at hx2
    simp at hx2
  rw [hleft, List.nil_append]
  unfold oldRowsOf
  rw [List.filter_map]
  congr 1
  apply List.filter_eq_self.mpr
  intro h hh
  rw [List.mem_filter] at hh
  simp only [Function.comp]
  rw [key_specOldRow]
  exact hh.2

theorem blockOf_mergeSpec {S H : Table} {t1 t2 : Nat} {s : Row}
    (h1 : "first_seen_at" ∉ S.cols)
    (hSkeys : (S.rows.map (sentinelKey S.cols S.cols)).Nodup) (hs : s ∈ S.rows) :
    blockOf t2 S (mergeSpec t1 S H) s =
      (blockOf t1 S H s).map (fun r =>
        if sentinelKey S.cols (S.cols ++ ["first_seen_at", "last_seen_at"]) r ∈
            S.rows.map (sentinelKey S.cols S.cols)
        then r.set (S.cols.length + 1) (some (Val.time t2)) else r) := by
  conv_lhs => unfold blockOf
  rw [histMatches_mergeSpec hSkeys hs]
  have hne : (blockOf t1 S H s).isEmpty = false := by
    cases hb : blockOf t1 S H s with
    | nil => exact absurd hb blockOf_ne_nil
    | cons a l => rfl
  rw [if_neg (by simp [hne])]
  apply List.map_congr_left
  intro m hm
  rcases mem_blockOf hm with he | ⟨hr, hhr, he⟩
  · subst he
    rw [specMatchedRow_stable rfl h1 specNewRow_split (normCell_time t1)]
    rw [key_specNewRow, if_pos (List.mem_map.mpr ⟨s, hs, rfl⟩)]
    rw [specNewRow_split, set_bus_last (by simp)]
  · subst he
    rw [specMatchedRow_stable rfl h1 specMatchedRow_split (normCell_idem _)]
    rw [key_specMatchedRow, if_pos (List.mem_map.mpr ⟨s, hs, rfl⟩)]
    rw [specMatchedRow_split, set_bus_last (by simp)]

theorem mergeSpec_idem {S H : Table} {t1 t2 : Nat}
    (h1 : "first_seen_at" ∉ S.cols) (h2 : "last_seen_at" ∉ S.cols)
    (hSkeys : (S.rows.map (sentinelKey S.cols S.cols)).Nodup) :
    mergeSpec t2 S (mergeSpec t1 S H) =
      Table.mk (S.cols ++ ["first_seen_at", "last_seen_at"])
        ((mergeSpec t1 S H).rows.map (fun r =>
          if sentinelKey S.cols (S.cols ++ ["first_seen_at", "last_seen_at"]) r ∈
              S.rows.map (sentinelKey S.cols S.cols)
          then r.set (S.cols.length + 1) (some (Val.time t2)) else r)) := by
  apply table_ext
  · rfl
  · show (mergeSpec t2 S (mergeSpec t1 S H)).rows =
      (mergeSpec t1 S H).rows.map (fun r =>
        if sentinelKey S.cols (S.cols ++ ["first_seen_at", "last_seen_at"]) r ∈
            S.rows.map (sentinelKey S.cols S.cols)
        then r.set (S.cols.length + 1) (some (Val.time t2)) else r)
    rw [mergeSpec_rows_eq, mergeSpec_rows_eq, List.map_append, List.map_flatMap]
    congr 1
    · exact flatMap_congr_mem (fun s hs => blockOf_mergeSpec h1 hSkeys hs)
    · conv_lhs => unfold oldRowsOf
      rw [oldRows_mergeSpec]
      apply List.map_congr_left
      intro m hm
      unfold oldRowsOf at hm
      rcases List.mem_map.mp hm with ⟨h, hh, he⟩
      rw [List.mem_filter] at hh
      subst he
      rw [specOldRow_mergeSpec h1 h2]
      rw [key_specOldRow]
      have hnotmem : sentinelKey S.cols H.cols h ∉
          S.rows.map (sentinelKey S.cols S.cols) := by
        intro hmem
        rcases List.mem_map.mp hmem with ⟨s, hs, hkey⟩
        have hc := (List.all_eq_true.mp hh.2) s hs
        rw [hkey] at hc
        simp at hc
      rw [if_neg hnotmem]

/-- C1: Amended merge idempotence.  For a wellformed snapshot with distinct
sentinel-normalized keys and no literal sentinel value, running
`merge_with_current_data` a second time with the same snapshot against its own
output keeps the columns and the rows, only advancing `last_seen_at` (the cell
at index `|S.cols| + 1`) of the rows matched by the snapshot to the second run
time.  (The unamended claim is refuted by `merge_idempotence_cex`: with
duplicate snapshot rows the second run adds rows.) -/
theorem merge_idempotence (S H : Table) (t1 t2 : Nat)
    (hS : SnapshotWf S) (hH : HistoryWf H)
    (hSkeys : (S.rows.map (sentinelKey S.cols S.cols)).Nodup)
    (hnoph : ∀ r ∈ S.rows, some placeholder ∉ r) :
    ∀ M1, merge_with_current_data t1 S (some H) = some M1 →
      merge_with_current_data t2 S (some M1) =
        some (Table.mk M1.cols (M1.rows.map (fun r =>
          if sentinelKey S.cols M1.cols r ∈ S.rows.map (sentinelKey S.cols S.cols)
          then r.set (S.cols.length + 1) (some (Val.time t2)) else r))) := by
  intro M1 hM1
  by_cases hSrows : S.rows = []
  · have hlen0 : S.rows.length = 0 := by simp [hSrows]
    unfold merge_with_current_data
    rw [if_pos hlen0]
    have hmap : M1.rows.map (fun r =>
        if sentinelKey S.cols M1.cols r ∈ S.rows.map (sentinelKey S.cols S.cols)
        then r.set (S.cols.length + 1) (some (Val.time t2)) else r) = M1.rows := by
      conv_rhs => rw [← List.map_id M1.rows]
      apply List.map_congr_left
      intro r _
      rw [hSrows]
      simp
    rw [hmap]
  · have hM1eq : M1 = mergeSpec t1 S H := by
      by_cases hHrows : H.rows = []
      · unfold merge_with_current_data at hM1
        rw [if_neg (by simp [List.length_eq_zero, hSrows])] at hM1
        simp only [] at hM1
        rw [if_pos (by simp [hHrows])] at hM1
        injection hM1 with he
        rw [← he]
        exact stamp_eq_mergeSpec hS.1 hS.2.1 hS.2.2.1 hS.2.2.2.2.2 hnoph hHrows
      · have hme : merge_with_current_data t1 S (some H) = some (mergeSpec t1 S H) :=
          merge_main_eq_spec hS hH hSrows hHrows
        rw [hM1] at hme
        exact Option.some.inj hme
    subst hM1eq
    rw [merge_main_eq_spec hS (mergeSpec_historyWf hS.1 hS.2.1 hS.2.2.1) hSrows
      (mergeSpec_rows_ne_nil hSrows)]
    rw [mergeSpec_idem hS.2.1 hS.2.2.1 hSkeys]
    rw [mergeSpec_cols]

/-- C1 counterexample data: a snapshot with two identical rows. -/
def c1S : Table := Table.mk ["a"] [[some (Val.str "v")], [some (Val.str "v")]]

/-- C1 counterexample data: an empty stored history. -/
def c1H : Table := Table.mk ["a", "first_seen_at", "last_seen_at"] []

/-- C1 counterexample: with a snapshot holding two identical rows, the first
run returns 2 rows and the second run with the same snapshot against its own
output returns 4 rows — the second run adds rows, refuting `merge(merge(H,S),S)
== merge(H,S)` up to `last_seen_at`. -/
theorem merge_idempotence_cex :
    ((merge_with_current_data 5 c1S (some c1H)).map (fun M => M.rows.length)
      = some 2) ∧
    (((merge_with_current_data 5 c1S (some c1H)).bind
        (fun M => merge_with_current_data 6 c1S (some M))).map
          (fun M => M.rows.length) = some 4) := by
  constructor
  · rfl
  · rfl

/-- C1 witness data: a one-row snapshot. -/
def w1S : Table := Table.mk ["a"] [[some (Val.str "v")]]

/-- C1 witness data: a one-row history matching the snapshot. -/
def w1H : Table :=
  Table.mk ["a", "first_seen_at", "last_seen_at"]
    [[some (Val.str "v"), some (Val.time 1), some (Val.time 2)]]

/-- C1 witness data: the output of the first merge run. -/
def w1M1 : Table :=
  Table.mk ["a", "first_seen_at", "last_seen_at"]
    [[some (Val.str "v"), some (Val.time 1), some (Val.time 5)]]

/-- C1 witness: `merge_idempotence` applied at a concrete snapshot, history
and pair of run times. -/
theorem merge_idempotence_witness :
    merge_with_current_data 6 w1S (some w1M1) =
      some (Table.mk w1M1.cols (w1M1.rows.map (fun r =>
        if sentinelKey w1S.cols w1M1.cols r ∈
            w1S.rows.map (sentinelKey w1S.cols w1S.cols)
        then r.set (w1S.cols.length + 1) (some (Val.time 6)) else r))) :=
  merge_idempotence w1S w1H 5 6 (by unfold SnapshotWf; decide)
    (by unfold HistoryWf; decide) (by decide) (by decide) w1M1 (by decide)

/-- C2 counterexample data: a snapshot without the history's column "b". -/
def c2S : Table := Table.mk ["a"] [[some (Val.str "s")]]

/-- C2 counterexample data: a history with an extra business column "b". -/
def c2H : Table :=
  Table.mk ["a", "b", "first_seen_at", "last_seen_at"]
    [[some (Val.str "h"), some (Val.str "bv"), some (Val.time 0), some (Val.time 0)]]

/-- C2 counterexample: the history row with business tuple ("h", "bv") is a row
of the input history, yet no row of the merge output agrees with it on the
history's entire non-timestamp column tuple — the history-only column "b" is
dropped by the merge, so full-tuple presence of prior history rows fails. -/
theorem history_monotonicity_cex :
    [some (Val.str "h"), some (Val.str "bv"), some (Val.time 0), some (Val.time 0)]
        ∈ c2H.rows ∧
    (merge_with_current_data 7 c2S (some c2H)).map (fun M =>
      M.rows.all (fun m =>
        !(decide ((c2H.cols.filter (fun c =>
            !(c == "first_seen_at" || c == "last_seen_at"))).map (getCell M.cols m) =
          (c2H.cols.filter (fun c =>
            !(c == "first_seen_at" || c == "last_seen_at"))).map (getCell c2H.cols
              [some (Val.str "h"), some (Val.str "bv"),
               some (Val.time 0), some (Val.time 0)]))))) = some true := by
  constructor
  · exact List.mem_singleton.mpr rfl
  · rfl

/-- C2: Amended history monotonicity.  When the snapshot is empty the stored
history is returned unchanged; and provided every history column is a snapshot
column or a timestamp column and no history cell at a snapshot column is the
literal sentinel string, every history row is present in the output by its
entire non-timestamp column tuple.  (The unamended claim — full-tuple presence
for arbitrary histories — is refuted by `history_monotonicity_cex`: columns
present only in the history are dropped.) -/
theorem history_monotonicity (S H : Table) (t : Nat)
    (hS : SnapshotWf S) (hH : HistoryWf H)
    (hsub : ∀ c ∈ H.cols, c = "first_seen_at" ∨ c = "last_seen_at" ∨ c ∈ S.cols)
    (hnophH : ∀ h ∈ H.rows, ∀ c ∈ S.cols, getCell H.cols h c ≠ some placeholder) :
    (S.rows = [] → merge_with_current_data t S (some H) = some H) ∧
    (∀ M, merge_with_current_data t S (some H) = some M →
      ∀ h ∈ H.rows, ∃ m ∈ M.rows,
        ∀ c ∈ H.cols, c ≠ "first_seen_at" → c ≠ "last_seen_at" →
          getCell M.cols m c = getCell H.cols h c) := by
  constructor
  · intro hSrows
    unfold merge_with_current_data
    rw [if_pos (by simp [hSrows])]
  · intro M hM h hh
    by_cases hSrows : S.rows = []
    · have hMH : M = H := by
        unfold merge_with_current_data at hM
        rw [if_pos (by simp [hSrows])] at hM
        exact (Option.some.inj hM).symm
      subst hMH
      exact ⟨h, hh, fun c _ _ _ => rfl⟩
    · by_cases hHrows : H.rows = []
      · rw [hHrows] at hh
        exact absurd hh (List.not_mem_nil h)
      · have hMeq : M = mergeSpec t S H := by
          have hme : merge_with_current_data t S (some H) = some (mergeSpec t S H) :=
            merge_main_eq_spec hS hH hSrows hHrows
          rw [hM] at hme
          exact Option.some.inj hme
        subst hMeq
        by_cases hall : (S.rows.all (fun s =>
            !(decide (sentinelKey S.cols S.cols s =
              sentinelKey S.cols H.cols h)))) = true
        · refine ⟨specOldRow S H h, specOld_mem hh hall, ?_⟩
          intro c hc hc1 hc2
          have hcS : c ∈ S.cols := by
            rcases hsub c hc with h' | h' | h'
            · exact absurd h' hc1
            · exact absurd h' hc2
            · exact h'
          rw [mergeSpec_cols, specOldRow_split, getCell_specRow hS.2.1 hS.2.2.1,
            if_pos hcS]
          exact normCell_eq_self (hnophH h hh c hcS)
        · rw [Bool.not_eq_true, List.all_eq_false] at hall
          rcases hall with ⟨s, hs, hneg⟩
          have hkey : sentinelKey S.cols S.cols s = sentinelKey S.cols H.cols h := by
            simpa using hneg
          have hmem : h ∈ histMatches S H s := by
            unfold histMatches
            rw [List.mem_filter]
            exact ⟨hh, decide_eq_true hkey.symm⟩
          refine ⟨specMatchedRow t S H s h, specMatched_mem hs hmem, ?_⟩
          intro c hc hc1 hc2
          have hcS : c ∈ S.cols := by
            rcases hsub c hc with h' | h' | h'
            · exact absurd h' hc1
            · exact absurd h' hc2
            · exact h'
          rw [mergeSpec_cols, specMatchedRow_split, getCell_specRow hS.2.1 hS.2.2.1,
            if_pos hcS]
          rw [sentinelKey_pointwise hkey c hcS]
          exact normCell_eq_self (hnophH h hh c hcS)

/-- C2 witness data: a one-column snapshot. -/
def w2S : Table := Table.mk ["a"] [[some (Val.str "x")]]

/-- C2 witness data: a history over the same business column. -/
def w2H : Table :=
  Table.mk ["a", "first_seen_at", "last_seen_at"]
    [[some (Val.str "y"), some (Val.time 1), some (Val.time 2)]]

/-- C2 witness: `history_monotonicity` applied at a concrete snapshot and
history. -/
theorem history_monotonicity_witness :
    (w2S.rows = [] → merge_with_current_data 9 w2S (some w2H) = some w2H) ∧
    (∀ M, merge_with_current_data 9 w2S (some w2H) = some M →
      ∀ h ∈ w2H.rows, ∃ m ∈ M.rows,
        ∀ c ∈ w2H.cols, c ≠ "first_seen_at" → c ≠ "last_seen_at" →
          getCell M.cols m c = getCell w2H.cols h c) :=
  history_monotonicity w2S w2H 9 (by unfold SnapshotWf; decide)
    (by unfold HistoryWf; decide) (by decide) (by decide)

/-- C4 counterexample data: a snapshot lacking the history's column "b". -/
def c4S : Table := Table.mk ["a"] [[some (Val.str "s")]]

/-- C4 counterexample data: a non-empty history with drifted column "b". -/
def c4H : Table :=
  Table.mk ["a", "b", "first_seen_at", "last_seen_at"]
    [[some (Val.str "h"), some (Val.str "bv"), some (Val.time 0), some (Val.time 0)]]

/-- C4 counterexample: both inputs are non-empty and the history has a column
"b" absent from the snapshot, yet "b" does not appear in the columns of the
merged output — the drifted history-side column and its values are dropped,
refuting the claim that the drifted column appears in the returned table. -/
theorem schema_drift_cex :
    "b" ∈ c4H.cols ∧ c4S.rows ≠ [] ∧ c4H.rows ≠ [] ∧
    (merge_with_current_data 7 c4S (some c4H)).map
      (fun M => decide ("b" ∈ M.cols)) = some false := by
  refine ⟨by decide, by decide, by decide, rfl⟩

/-- C4: Amended schema-drift tolerance.  On non-empty wellformed inputs the
merge never fails: it returns a table whose columns are exactly the snapshot
columns plus the two timestamp columns.  Snapshot-only drift columns are
handled by null fill: an unmatched history row is kept and holds null in every
snapshot column absent from the history.  History-only business columns,
however, do not appear in the output (refuting the unamended claim, see
`schema_drift_cex`). -/
theorem schema_drift (S H : Table) (t : Nat)
    (hS : SnapshotWf S) (hH : HistoryWf H)
    (hSne : S.rows ≠ []) (hHne : H.rows ≠ []) :
    ∃ M, merge_with_current_data t S (some H) = some M ∧
      M.cols = S.cols ++ ["first_seen_at", "last_seen_at"] ∧
      (∀ c ∈ H.cols, c ≠ "first_seen_at" → c ≠ "last_seen_at" → c ∉ S.cols →
        c ∉ M.cols) ∧
      (∀ h ∈ H.rows,
        (S.rows.all (fun s => !(decide (sentinelKey S.cols S.cols s =
          sentinelKey S.cols H.cols h)))) = true →
        specOldRow S H h ∈ M.rows ∧
        ∀ c ∈ S.cols, c ∉ H.cols → getCell M.cols (specOldRow S H h) c = none) := by
  refine ⟨mergeSpec t S H, merge_main_eq_spec hS hH hSne hHne, mergeSpec_cols, ?_, ?_⟩
  · intro c hc hc1 hc2 hcS
    rw [mergeSpec_cols]
    intro hmem
    rcases List.mem_append.mp hmem with hmem | hmem
    · exact hcS hmem
    · simp only [List.mem_cons, List.not_mem_nil, or_false] at hmem
      rcases hmem with he | he
      · exact hc1 he
      · exact hc2 he
  · intro h hh hall
    refine ⟨specOld_mem hh hall, ?_⟩
    intro c hcS hcH
    rw [mergeSpec_cols, specOldRow_split, getCell_specRow hS.2.1 hS.2.2.1, if_pos hcS,
      getCell_not_mem hcH]
    rfl

/-- C4 witness data: a snapshot with its own drift column "c". -/
def w4S : Table := Table.mk ["a", "c"] [[some (Val.str "s"), some (Val.str "cv")]]

/-- C4 witness data: a history with its own drift column "b". -/
def w4H : Table :=
  Table.mk ["a", "b", "first_seen_at", "last_seen_at"]
    [[some (Val.str "h"), some (Val.str "bv"), some (Val.time 0), some (Val.time 0)]]

/-- C4 witness: `schema_drift` applied at a concrete pair of tables with drift
on both sides. -/
theorem schema_drift_witness :
    ∃ M, merge_with_current_data 7 w4S (some w4H) = some M ∧
      M.cols = w4S.cols ++ ["first_seen_at", "last_seen_at"] ∧
      (∀ c ∈ w4H.cols, c ≠ "first_seen_at" → c ≠ "last_seen_at" → c ∉ w4S.cols →
        c ∉ M.cols) ∧
      (∀ h ∈ w4H.rows,
        (w4S.rows.all (fun s => !(decide (sentinelKey w4S.cols w4S.cols s =
          sentinelKey w4S.cols w4H.cols h)))) = true →
        specOldRow w4S w4H h ∈ M.rows ∧
        ∀ c ∈ w4S.cols, c ∉ w4H.cols →
          getCell M.cols (specOldRow w4S w4H h) c = none) :=
  schema_drift w4S w4H 7 (by unfold SnapshotWf; decide) (by unfold HistoryWf; decide)
    (by decide) (by decide)

/-- C3 witness data: snapshot with a shared null in column "b". -/
def w3S : Table := Table.mk ["a", "b"] [[some (Val.str "v"), none]]

/-- C3 witness data: history row identical to the snapshot row, null included. -/
def w3H : Table :=
  Table.mk ["a", "b", "first_seen_at", "last_seen_at"]
    [[some (Val.str "v"), none, some (Val.time 1), some (Val.time 2)]]

/-- C3 witness data: the snapshot row. -/
def w3s : Row := [some (Val.str "v"), none]

/-- C3 witness data: the history row. -/
def w3h : Row := [some (Val.str "v"), none, some (Val.time 1), some (Val.time 2)]

/-- C3 witness data: the merged output. -/
def w3M : Table :=
  Table.mk ["a", "b", "first_seen_at", "last_seen_at"]
    [[some (Val.str "v"), none, some (Val.time 1), some (Val.time 5)]]

/-- C3 witness: `null_safe_matching` applied at a concrete pair of rows that
agree on every business column, a shared null included. -/
theorem null_safe_matching_witness :
    (∃ m ∈ w3M.rows,
      (∀ c ∈ w3S.cols, getCell w3M.cols m c = normCell (getCell w3S.cols w3s c)) ∧
      getCell w3M.cols m "first_seen_at" =
        normCell (getCell w3H.cols w3h "first_seen_at") ∧
      getCell w3M.cols m "last_seen_at" = some (Val.time 5)) ∧
    (∀ m ∈ w3M.rows,
      (∀ c ∈ w3S.cols, getCell w3M.cols m c = normCell (getCell w3S.cols w3s c)) →
      getCell w3M.cols m "first_seen_at" =
        normCell (getCell w3H.cols w3h "first_seen_at") ∧
      getCell w3M.cols m "last_seen_at" = some (Val.time 5)) :=
  null_safe_matching w3S w3H 5 (by unfold SnapshotWf; decide)
    (by unfold HistoryWf; decide) (by decide) w3s w3h (by decide) (by decide)
    (by decide) w3M (by decide)

/-- C5 witness data: a one-row snapshot. -/
def w5S : Table := Table.mk ["a"] [[some (Val.str "v")]]

/-- C5 witness data: a matching history row with ordered timestamps. -/
def w5H : Table :=
  Table.mk ["a", "first_seen_at", "last_seen_at"]
    [[some (Val.str "v"), some (Val.time 1), some (Val.time 2)]]

/-- C5 witness data: the merged output. -/
def w5M : Table :=
  Table.mk ["a", "first_seen_at", "last_seen_at"]
    [[some (Val.str "v"), some (Val.time 1), some (Val.time 5)]]

/-- C5 witness data: the single merged row. -/
def w5r : Row := [some (Val.str "v"), some (Val.time 1), some (Val.time 5)]

/-- C5 witness: `timestamp_invariant` applied at a concrete snapshot, history
and run time. -/
theorem timestamp_invariant_witness :
    ∃ a b : Nat,
      getCell w5M.cols w5r "first_seen_at" = some (Val.time a) ∧
      getCell w5M.cols w5r "last_seen_at" = some (Val.time b) ∧ a ≤ b :=
  timestamp_invariant w5S w5H 5 (by unfold SnapshotWf; decide)
    (by unfold HistoryWf; decide)
    (by
      intro r hr
      have hr2 : r = [some (Val.str "v"), some (Val.time 1), some (Val.time 2)] := by
        simpa [w5H] using hr
      subst hr2
      exact ⟨1, 2, rfl, rfl, by decide, by decide⟩)
    w5M (by decide) w5r (by decide)

/-- C6 witness data: a snapshot whose only cell is the literal sentinel. -/
def w6S : Table := Table.mk ["a"] [[some (Val.str "___NULL___")]]

/-- C6 witness data: a history whose only business cell is null. -/
def w6H : Table :=
  Table.mk ["a", "first_seen_at", "last_seen_at"]
    [[none, some (Val.time 0), some (Val.time 1)]]

/-- C6 witness data: the merged output — the literal sentinel came out null. -/
def w6M : Table :=
  Table.mk ["a", "first_seen_at", "last_seen_at"]
    [[none, some (Val.time 0), some (Val.time 3)]]

/-- C6 witness: `sentinel_collision` applied at a concrete snapshot holding the
literal string '___NULL___'. -/
theorem sentinel_collision_witness :
    (∀ m ∈ w6M.rows, ∀ c : String,
      getCell w6M.cols m c ≠ some (Val.str "___NULL___")) ∧
    (∀ s ∈ w6S.rows, ∃ m ∈ w6M.rows, ∀ c ∈ w6S.cols,
      getCell w6M.cols m c = normCell (getCell w6S.cols s c)) ∧
    (∀ h ∈ w6H.rows, ∃ m ∈ w6M.rows, ∀ c ∈ w6S.cols,
      getCell w6M.cols m c = normCell (getCell w6H.cols h c)) :=
  sentinel_collision w6S w6H 3 (by unfold SnapshotWf; decide)
    (by unfold HistoryWf; decide) (by decide) (by decide) w6M (by decide)

theorem not_upper_of_digit {c : Char} (h : c.isDigit = true) : c.isUpper = false := by
  simp [Char.isDigit, Char.isUpper] at *
  intro h2
  obtain ⟨ha, hb⟩ := h
  have hb2 : c.val.toNat ≤ 57 := hb
  have h22 : 65 ≤ c.val.toNat := h2
  omega

theorem not_space_of_upper {c : Char} (h : c.isUpper = true) : (c == ' ') = false := by
  simp [Char.isUpper] at *
  obtain ⟨ha, hb⟩ := h
  intro h2
  rw [h2] at ha
  have ha2 : 65 ≤ (' '.val).toNat := ha
  have he : (' '.val).toNat = 32 := rfl
  omega

theorem not_space_of_digit {c : Char} (h : c.isDigit = true) : (c == ' ') = false := by
  simp [Char.isDigit] at *
  obtain ⟨ha, hb⟩ := h
  intro h2
  rw [h2] at ha
  have ha2 : 48 ≤ (' '.val).toNat := ha
  have he : (' '.val).toNat = 32 := rfl
  omega

theorem takeWhile_all_append {p : Char → Bool} {l1 l2 : List Char}
    (h : ∀ c ∈ l1, p c = true) (h2 : l2.takeWhile p = []) :
    (l1 ++ l2).takeWhile p = l1 := by
  induction l1 with
  | nil => simpa using h2
  | cons c cs ih =>
    simp only [List.cons_append, List.takeWhile_cons,
      h c (List.mem_cons_self c cs), if_true]
    rw [ih (fun d hd => h d (List.mem_cons_of_mem _ hd))]

theorem dropWhile_all_append {p : Char → Bool} {l1 l2 : List Char}
    (h : ∀ c ∈ l1, p c = true) (h2 : l2.dropWhile p = l2) :
    (l1 ++ l2).dropWhile p = l2 := by
  induction l1 with
  | nil => simpa using h2
  | cons c cs ih =>
    simp only [List.cons_append, List.dropWhile_cons,
      h c (List.mem_cons_self c cs), if_true]
    exact ih (fun d hd => h d (List.mem_cons_of_mem _ hd))

theorem takeWhile_all {p : Char → Bool} {l : List Char} (h : ∀ c ∈ l, p c = true) :
    l.takeWhile p = l := by
  induction l with
  | nil => rfl
  | cons c cs ih =>
    simp only [List.takeWhile_cons, h c (List.mem_cons_self c cs), if_true]
    rw [ih (fun d hd => h d (List.mem_cons_of_mem _ hd))]

theorem dropWhile_all {p : Char → Bool} {l : List Char} (h : ∀ c ∈ l, p c = true) :
    l.dropWhile p = [] := by
  induction l with
  | nil => rfl
  | cons c cs ih =>
    simp only [List.dropWhile_cons, h c (List.mem_cons_self c cs), if_true]
    exact ih (fun d hd => h d (List.mem_cons_of_mem _ hd))

/-- C7: Identifier round-trip. `clean_bill_id` on "89(R) HB 1" yields exactly
("HB1", "89R"); and for every identifier made of an uppercase-letter prefix
followed by digits, the page parser's spacing normalization `billSubChars`
(the `re.sub` of `_extract_bill_ids_from_text`) maps the space-stripped
compact form back to the spaced form — it is the inverse of the space removal
`clean_bill_id` performs on the bill-number token. -/
theorem bill_id_round_trip :
    clean_bill_id "89(R) HB 1" = some ("HB1", "89R") ∧
    ∀ L D : List Char, L ≠ [] → (∀ c ∈ L, c.isUpper = true) → D ≠ [] →
      (∀ c ∈ D, c.isDigit = true) →
      billSubChars ((L ++ ' ' :: D).filter (fun c => !(c == ' '))) =
        L ++ ' ' :: D := by
  constructor
  · rfl
  · intro L D hLne hL hDne hD
    have hfilter : (L ++ ' ' :: D).filter (fun c => !(c == ' ')) = L ++ D := by
      rw [List.filter_append]
      congr 1
      · apply List.filter_eq_self.mpr
        intro c hc
        simp [not_space_of_upper (hL c hc)]
      · rw [List.filter_cons, if_neg (by decide)]
        apply List.filter_eq_self.mpr
        intro c hc
        simp [not_space_of_digit (hD c hc)]
    rw [hfilter]
    cases L with
    | nil => exact absurd rfl hLne
    | cons u L2 =>
      cases D with
      | nil => exact absurd rfl hDne
      | cons d D2 =>
        have hu : u.isUpper = true := hL u (List.mem_cons_self u L2)
        have hL2 : ∀ c ∈ L2, c.isUpper = true :=
          fun c hc => hL c (List.mem_cons_of_mem _ hc)
        have hdu : d.isUpper = false :=
          not_upper_of_digit (hD d (List.mem_cons_self d D2))
        have htake : (L2 ++ d :: D2).takeWhile Char.isUpper = L2 :=
          takeWhile_all_append hL2 (by simp [List.takeWhile_cons, hdu])
        have hdrop : (L2 ++ d :: D2).dropWhile Char.isUpper = d :: D2 :=
          dropWhile_all_append hL2 (by simp [List.dropWhile_cons, hdu])
        have hdig : (d :: D2).takeWhile Char.isDigit = d :: D2 := takeWhile_all hD
        have hdropD : (d :: D2).dropWhile Char.isDigit = [] := dropWhile_all hD
        rw [List.cons_append]
        rw [billSubChars]
        simp only [hu, if_true, htake, hdrop, hdig, hdropD]
        rw [if_neg (by simp), billSubChars]
        simp

/-- C8: Prefiled-amendments classification.  The classified type text
"Prefiled Amendments Calendar - Thursday, August 21, 2025" normalizes to the
canonical label "LIST OF PRE-FILED AMENDMENTS" (the first ordered pattern rule
that matches wins), that label dispatches to the prefiled-amendments extractor,
and for every document the extractor produces exactly one subcalendar group
with reading_count 1 and an empty grouping label holding the flat list of all
bill identifiers matched in the document — and no group at all when none are
matched. -/
theorem prefiled_amendments_classification :
    normalize_calendar_type "Prefiled Amendments Calendar - Thursday, August 21, 2025"
      = "LIST OF PRE-FILED AMENDMENTS" ∧
    dispatchesToPrefiled "LIST OF PRE-FILED AMENDMENTS" = true ∧
    ∀ data : String,
      extract_prefiled_amendments_subcalendars data =
        if extract_bill_ids_from_text data = [] then []
        else [Subcalendar.mk 1 "" (extract_bill_ids_from_text data)] := by
  refine ⟨rfl, rfl, ?_⟩
  intro data
  unfold extract_prefiled_amendments_subcalendars
  by_cases hnil : extract_bill_ids_from_text data = []
  · rw [if_pos hnil, hnil]
    rfl
  · rw [if_neg hnil]
    simp [List.isEmpty_eq_false.mpr hnil]

/-- C9: Retry-once-after-reconnect.  A first successful attempt is returned
directly; if the first attempt raises, the session is re-established and the
operation attempted exactly one more time (a second success is returned, only
attempts 0 and 1 are ever consulted); if the reconnect or the second attempt
also fails no exception propagates — the wrapper yields `none`, so `get_data`
and `get_pdf_text` return `None` and `ls` returns the empty list. -/
theorem retry_once_after_reconnect :
    (∀ (c : Except Unit Unit) (op : Nat → Except Unit String) (a : String),
      op 0 = Except.ok a → retry_on_disconnect c op = some a) ∧
    (∀ (c : Except Unit Unit) (op : Nat → Except Unit String) (a : String),
      op 0 = Except.error () → c = Except.ok () → op 1 = Except.ok a →
      retry_on_disconnect c op = some a) ∧
    (∀ (op : Nat → Except Unit String),
      op 0 = Except.error () →
      retry_on_disconnect (Except.error ()) op = none) ∧
    (∀ (c : Except Unit Unit) (op : Nat → Except Unit String),
      op 0 = Except.error () → op 1 = Except.error () →
      retry_on_disconnect c op = none) ∧
    (∀ (c : Except Unit Unit) (op op2 : Nat → Except Unit String),
      op 0 = op2 0 → op 1 = op2 1 →
      retry_on_disconnect c op = retry_on_disconnect c op2) ∧
    (∀ (host : String) (url : FtpUrl) (c : Except Unit Unit)
      (op : Nat → Except Unit String),
      url.netloc = host → op 0 = Except.error () → op 1 = Except.error () →
      ftp_get_data host url c op = none) ∧
    (∀ (host : String) (url : FtpUrl) (c : Except Unit Unit)
      (op : Nat → Except Unit (List String)),
      url.netloc = host → op 0 = Except.error () → op 1 = Except.error () →
      ftp_ls host url c op = []) ∧
    (∀ (c : Except Unit Unit) (op : Nat → Except Unit String),
      op 0 = Except.error () → op 1 = Except.error () →
      ftp_get_pdf_text c op = none) := by
  have hretry : ∀ (α : Type) (c : Except Unit Unit) (op : Nat → Except Unit α),
      op 0 = Except.error () → op 1 = Except.error () →
      retry_on_disconnect c op = none := by
    intro α c op h0 h1
    unfold retry_on_disconnect
    rw [h0, h1]
    cases c <;> rfl
  refine ⟨?_, ?_, ?_, ?_, ?_, ?_, ?_, ?_⟩
  · intro c op a h0
    unfold retry_on_disconnect
    rw [h0]
  · intro c op a h0 hc h1
    subst hc
    unfold retry_on_disconnect
    rw [h0, h1]
  · intro op h0
    unfold retry_on_disconnect
    rw [h0]
  · intro c op h0 h1
    exact hretry String c op h0 h1
  · intro c op op2 h0 h1
    unfold retry_on_disconnect
    rw [h0, h1]
  · intro host url c op hhost h0 h1
    unfold ftp_get_data
    rw [if_neg (by simp [hhost])]
    exact hretry String c op h0 h1
  · intro host url c op hhost h0 h1
    unfold ftp_ls
    rw [if_neg (by simp [hhost])]
    rw [hretry (List String) c op h0 h1]
  · intro c op h0 h1
    unfold ftp_get_pdf_text
    exact hretry String c op h0 h1

/-- The chamber-loop body of `get_bill_urls` with its shared error budget:
a chamber is processed and then the traversal aborts if the folder-failure
count exceeds `maxErrors`; an already-raised abort passes through. -/
def budgetStep (ls : String → Except Unit (List String)) (baseUrl : String)
    (maxErrors : Nat) (st : Except Unit (List String × Nat)) (chamber : String) :
    Except Unit (List String × Nat) :=
  match st with
  | Except.error e => Except.error e
  | Except.ok acc =>
    let acc2 := chamberStep ls baseUrl acc chamber
    if acc2.2 > maxErrors then Except.error () else Except.ok acc2

theorem innerFold_count_mono (ls : String → Except Unit (List String)) :
    ∀ (folders : List String) (acc : List String × Nat),
      acc.2 ≤ (folders.foldl (fun st folderUrl =>
        match ls folderUrl with
        | Except.ok billXmls => (st.1 ++ billXmls, st.2)
        | Except.error _ => (st.1, st.2 + 1)) acc).2 := by
  intro folders
  induction folders with
  | nil => intro acc; exact Nat.le_refl _
  | cons f fs ih =>
    intro acc
    simp only [List.foldl_cons]
    refine Nat.le_trans ?_ (ih _)
    cases ls f <;> simp

theorem chamberStep_count_mono {ls : String → Except Unit (List String)}
    {baseUrl chamber : String} {acc : List String × Nat} :
    acc.2 ≤ (chamberStep ls baseUrl acc chamber).2 := by
  unfold chamberStep
  cases ls (baseUrl ++ "/billhistory/" ++ chamber) with
  | error e => exact Nat.le_refl _
  | ok folders => exact innerFold_count_mono ls folders acc

theorem foldl_chamber_count_mono (ls : String → Except Unit (List String))
    (baseUrl : String) :
    ∀ (l : List String) (acc : List String × Nat),
      acc.2 ≤ (l.foldl (chamberStep ls baseUrl) acc).2 := by
  intro l
  induction l with
  | nil => intro acc; exact Nat.le_refl _
  | cons c cs ih =>
    intro acc
    simp only [List.foldl_cons]
    exact Nat.le_trans chamberStep_count_mono (ih _)

theorem budget_fold_error (ls : String → Except Unit (List String))
    (baseUrl : String) (maxErrors : Nat) :
    ∀ l : List String,
      l.foldl (budgetStep ls baseUrl maxErrors) (Except.error ()) =
        Except.error () := by
  intro l
  induction l with
  | nil => rfl
  | cons c cs ih =>
    simp only [List.foldl_cons]
    exact ih

theorem budget_fold_eq (ls : String → Except Unit (List String))
    (baseUrl : String) (maxErrors : Nat) :
    ∀ (l : List String) (acc : List String × Nat), acc.2 ≤ maxErrors →
      l.foldl (budgetStep ls baseUrl maxErrors) (Except.ok acc) =
        if (l.foldl (chamberStep ls baseUrl) acc).2 > maxErrors
        then Except.error ()
        else Except.ok (l.foldl (chamberStep ls baseUrl) acc) := by
  intro l
  induction l with
  | nil =>
    intro acc hacc
    simp only [List.foldl_nil]
    rw [if_neg (by omega)]
  | cons chamber rest ih =>
    intro acc hacc
    simp only [List.foldl_cons]
    by_cases hover : (chamberStep ls baseUrl acc chamber).2 > maxErrors
    · have hstep : budgetStep ls baseUrl maxErrors (Except.ok acc) chamber =
          Except.error () := by
        unfold budgetStep
        simp only []
        rw [if_pos hover]
      rw [hstep, budget_fold_error ls baseUrl maxErrors rest]
      have hmono := foldl_chamber_count_mono ls baseUrl rest
        (chamberStep ls baseUrl acc chamber)
      rw [if_pos (by omega)]
    · have hstep : budgetStep ls baseUrl maxErrors (Except.ok acc) chamber =
          Except.ok (chamberStep ls baseUrl acc chamber) := by
        unfold budgetStep
        simp only []
        rw [if_neg hover]
      rw [hstep]
      exact ih _ (by omega)

/-- C10: Traversal error budget.  `get_bill_urls` raises (returns
`Except.error`) exactly when the shared count of per-folder listing failures
accumulated over the full traversal exceeds `max_errors`; otherwise every
individual folder-listing failure is skipped, the traversal of the remaining
categories and folders continues, and the full accumulated bill-URL list is
returned. -/
theorem traversal_error_budget (baseUrl : String)
    (ls : String → Except Unit (List String)) (maxErrors : Nat) :
    get_bill_urls baseUrl ls maxErrors =
      if (billChambers.foldl (chamberStep ls baseUrl) ([], 0)).2 > maxErrors
      then Except.error ()
      else Except.ok (billChambers.foldl (chamberStep ls baseUrl) ([], 0)).1 := by
  show (match billChambers.foldl (budgetStep ls baseUrl maxErrors)
      (Except.ok ([], 0)) with
    | Except.error e => Except.error e
    | Except.ok acc => Except.ok acc.1) = _
  rw [budget_fold_eq ls baseUrl maxErrors billChambers ([], 0) (Nat.zero_le _)]
  by_cases hcond : (billChambers.foldl (chamberStep ls baseUrl) ([], 0)).2 > maxErrors
  · rw [if_pos hcond, if_pos hcond]
  · rw [if_neg hcond, if_neg hcond]
